import Mathlib

/-!
Verification of the row-ordering core of the stacktower repository.

The PQ-tree implementation is embedded from src/pkg/dag/perm/pqtree.go,
the optimal search from src/pkg/render/tower/ordering/optimal.go and the
barycentric orderer from src/pkg/render/tower/ordering/barycentric.go.
Functions of the dag package and of the perm package other than pqtree.go
(Factorial, Seq, Generate, CountCrossings, ...) are not part of the
source tree; they are modelled from the specification, and each such
definition is marked `Modelled from the spec:` in its doc comment.

Go slices become Lean lists; a nil slice and an empty slice are both the
empty list except where the code distinguishes them (toStringOrder skips
nil path cells, and maps can be nil), in which case Option is used.
Go int is 64-bit on the linux/amd64 build target of the repository
Dockerfile; arithmetic that can overflow (countPerms / Factorial) wraps
through goMul below.  In-place mutation becomes explicit state passing.
-/

set_option maxRecDepth 100000

namespace StackTower

namespace Perm

/-- Two's complement wrap of a mathematical integer into the range of a
64-bit Go int. -/
def wrap64 (x : Int) : Int :=
  (x + 2 ^ 63) % 2 ^ 64 - 2 ^ 63

/-- Go 64-bit integer multiplication (wrapping). -/
def goMul (a b : Int) : Int := wrap64 (a * b)

/-- Modelled from the spec: perm.Factorial (not under src/).  The spec uses
it as the exact factorial (ValidCount invariant in section 3); on the Go
side it is computed in 64-bit int arithmetic, hence the wrap. -/
def factorialGo : Nat → Int
  | 0 => 1
  | n + 1 => goMul (factorialGo n) ((n : Int) + 1)

/-- nodeKind from pqtree.go. -/
inductive NodeKind where
  | leafNode
  | pNode
  | qNode
deriving DecidableEq, Repr

/-- markKind from pqtree.go.  The source name of the fourth mark is
spelled `part` here. -/
inductive Mark where
  | unmarked
  | empty
  | full
  | part
deriving DecidableEq, Repr

/-- pqNode from pqtree.go.  The parent back pointer is dropped (it is
only written, never read, except for the root-identity test which is
threaded as an isRoot flag), and the fullCount/partialCount caches are
dropped (they are recomputed from the children marks before every read). -/
inductive PQN : Type where
  | node (kind : NodeKind) (value : Nat) (mark : Mark) (children : List PQN)

def PQN.kind : PQN → NodeKind
  | .node k _ _ _ => k

def PQN.value : PQN → Nat
  | .node _ v _ _ => v

def PQN.mark : PQN → Mark
  | .node _ _ m _ => m

def PQN.children : PQN → List PQN
  | .node _ _ _ cs => cs

/-- PQTree from pqtree.go.  The leaves slice holds one pointer per leaf,
indexed by leaf value; only its length and the value-indexed marking are
observable, so the embedding keeps the leaf count. -/
structure PQTree where
  root : Option PQN
  nLeaves : Nat

/-- NewPQTree from pqtree.go. -/
def NewPQTree (n : Nat) : PQTree :=
  if n = 0 then ⟨none, 0⟩
  else if n = 1 then ⟨some (.node .leafNode 0 .unmarked []), 1⟩
  else
    ⟨some (.node .pNode 0 .unmarked
      ((List.range n).map (fun i => PQN.node .leafNode i .unmarked []))), n⟩

/-- clearMarks from pqtree.go (marks only; the count caches are dropped). -/
def clearMarks : PQN → PQN
  | .node k v _ cs => .node k v .unmarked (go cs)
where go : List PQN → List PQN
  | [] => []
  | c :: rest => clearMarks c :: go rest

/-- The marking loop of Reduce: `for elem in constraint, if 0 ≤ elem < n
then leaves[elem].mark = full`.  leaves[elem] is the leaf node with value
elem (the leaves slice is indexed by value), so the embedding marks every
leaf whose value is an in-range element of the constraint. -/
def markLeaves (constraint : List Int) (n : Nat) : PQN → PQN
  | .node k v m cs =>
    if k = .leafNode ∧ 0 ≤ (v : Int) ∧ (v : Int) < (n : Int) ∧ (v : Int) ∈ constraint then
      .node k v .full cs
    else
      .node k v m (go cs)
where go : List PQN → List PQN
  | [] => []
  | c :: rest => markLeaves constraint n c :: go rest

/-- bubbleUp from pqtree.go: returns the computed mark together with the
re-marked node. -/
def bubbleUp : PQN → Mark × PQN
  | .node k v m cs =>
    if k = .leafNode then
      let m' := if m = .unmarked then .empty else m
      (m', .node k v m' cs)
    else
      let r := go cs
      let fullCount := r.1
      let partCount := r.2.1
      let cs' := r.2.2
      let m' :=
        if fullCount = cs.length then .full
        else if fullCount = 0 ∧ partCount = 0 then .empty
        else .part
      (m', .node k v m' cs')
where go : List PQN → Nat × Nat × List PQN
  | [] => (0, 0, [])
  | c :: rest =>
    let p := bubbleUp c
    let r := go rest
    match p.1 with
    | .full => (r.1 + 1, r.2.1, p.2 :: r.2.2)
    | .part => (r.1, r.2.1 + 1, p.2 :: r.2.2)
    | _ => (r.1, r.2.1, p.2 :: r.2.2)

/-- Default node used only to satisfy totality where the Go code relies
on an invariant (e.g. head of a list known to be nonempty). -/
def dfltNode : PQN := .node .leafNode 0 .unmarked []

/-- Mark of the child at index i (total helper over get?). -/
def markAt (cs : List PQN) (i : Nat) : Mark :=
  match cs.get? i with
  | some c => c.mark
  | none => .unmarked

/-- The insert-once replacement loops shared by groupChildren and
extendPartialChild in pqtree.go: every child satisfying isGrp is removed
and the replacement node is inserted at the position of the first of
them.  In Go membership is a pointer set; at both call sites the set is
exactly the children with a given mark, which is what isGrp tests. -/
def replaceRun (isGrp : PQN → Bool) (newNode : PQN) (children : List PQN) : List PQN :=
  go children false
where go : List PQN → Bool → List PQN
  | [], _ => []
  | c :: rest, inserted =>
    if isGrp c then
      if inserted then go rest true else newNode :: go rest true
    else
      c :: go rest inserted

/-- groupChildren from pqtree.go.  It is only called with group = the
full-marked children of the parent, so the pointer-set membership test
is the test mark == full. -/
def groupChildren (children group : List PQN) (kind : NodeKind) : List PQN :=
  if group.length ≤ 1 then children
  else
    let newNode := PQN.node kind 0 (group.headD dfltNode).mark group
    replaceRun (fun c => c.mark == .full) newNode children

/-- extendPartialChild from pqtree.go, acting on the fields of the parent
node.  It is only called from reducePNode with exactly one partial child
and group = all full children, so the pointer set toRemove (the partial
child plus the full siblings) is exactly the children whose mark is part
or full.  The root-collapse branch is guarded by the isRoot flag that
replaces the parent == t.root pointer test. -/
def extendPartChild (isRoot : Bool) (k : NodeKind) (v : Nat) (m : Mark)
    (children : List PQN) (partChild : PQN) (fullSiblings : List PQN) : Bool × PQN :=
  if fullSiblings.isEmpty then (true, .node k v m children)
  else
    let fullInPart := partChild.children.filter (fun c => c.mark == .full)
    let emptyInPart := partChild.children.filter (fun c => !(c.mark == .full))
    let qnode := PQN.node .qNode 0 .part (emptyInPart ++ fullInPart ++ fullSiblings)
    let newChildren := replaceRun (fun c => c.mark == .part || c.mark == .full) qnode children
    if newChildren.length = 1 ∧ isRoot then
      (true, newChildren.headD qnode)
    else
      (true, .node k v m newChildren)

/-- The reversal test of mergeQNodes (pqtree.go): reverse the spliced
child when its full end would otherwise point away from the adjacent
full sibling; note the dangling else — a full left sibling suppresses
the right-sibling test even when the inner check fails. -/
def mergeRev (children : List PQN) (idx : Nat) (child : PQN) : Bool :=
  if idx > 0 ∧ markAt children (idx - 1) = .full then
    match child.children.getLast? with
    | some lastC => lastC.mark == .full
    | none => false
  else if idx < children.length - 1 ∧ markAt children (idx + 1) = .full then
    match child.children.head? with
    | some firstC => firstC.mark == .full
    | none => false
  else false

/-- mergeQNodes from pqtree.go, acting on the children list of the parent
Q-node.  Go would fault on an out-of-range index; the embedding returns
the list unchanged there (the claims never reach that state). -/
def mergeQNodes (children : List PQN) (idx : Nat) : List PQN :=
  match children.get? idx with
  | none => children
  | some child =>
    if child.kind ≠ .qNode then children
    else
      (children.take idx ++
        (if mergeRev children idx child then child.children.reverse else child.children)) ++
        children.drop (idx + 1)

/-- The index scan of reduceQNode: first/last index of a full child and
the list of indices of partial children (Go uses -1 sentinels; the
embedding uses Option). -/
def scanQ (cs : List PQN) : Option Nat × Option Nat × List Nat :=
  go cs 0 none none []
where go : List PQN → Nat → Option Nat → Option Nat → List Nat →
    Option Nat × Option Nat × List Nat
  | [], _, f, l, p => (f, l, p)
  | c :: rest, i, f, l, p =>
    match c.mark with
    | .full => go rest (i + 1) (if f.isNone then some i else f) (some i) p
    | .part => go rest (i + 1) f l (p ++ [i])
    | _ => go rest (i + 1) f l p

/-- reduce / reducePNode / reduceQNode / reducePartialChildren from
pqtree.go as one recursive function.  The Bool result is the Go return
value; the node result is the rewritten subtree (Go mutates in place).
reduceChildren is reducePartialChildren: it rewrites the partial
children in order and stops at the first failure, leaving the tail
untouched, exactly like the Go loop.  The count recomputation of
reducePartialChildren only refreshes the dropped caches. -/
def reduceN (isRoot : Bool) : PQN → Bool × PQN
  | .node k v m cs =>
    if m == .full || m == .empty then (true, .node k v m cs)
    else
      match k with
      | .leafNode => (true, .node k v m cs)
      | .pNode =>
        let r := reduceChildren cs
        if !r.1 then (false, .node k v m r.2)
        else
          let cs₁ := r.2
          let fullCh := cs₁.filter (fun c => c.mark == .full)
          let emptyCh := cs₁.filter (fun c => c.mark == .empty)
          let partCh := cs₁.filter (fun c => c.mark == .part)
          if partCh.length > 1 then (false, .node k v m cs₁)
          else if fullCh.length = 0 then (true, .node k v m cs₁)
          else if partCh.length = 0 then
            if fullCh.length > 1 ∧ emptyCh.length > 0 then
              (true, .node k v m (groupChildren cs₁ fullCh .pNode))
            else (true, .node k v m cs₁)
          else
            extendPartChild isRoot k v m cs₁ (partCh.headD dfltNode) fullCh
      | .qNode =>
        let r := reduceChildren cs
        if !r.1 then (false, .node k v m r.2)
        else
          let cs₁ := r.2
          let s := scanQ cs₁
          match s.1 with
          | none => (true, .node k v m cs₁)
          | some fi =>
            let la := (s.2.1).getD fi
            if (List.range (la + 1 - fi)).any (fun j => markAt cs₁ (fi + j) == .empty) then
              (false, .node k v m cs₁)
            else if (s.2.2).any
                (fun idx => !((idx : Int) = (fi : Int) - 1 || (idx : Int) = (la : Int) + 1)) then
              (false, .node k v m cs₁)
            else
              let cs₂ := (s.2.2).foldl
                (fun cur idx =>
                  match cur.get? idx with
                  | some c => if c.kind == .qNode then mergeQNodes cur idx else cur
                  | none => cur)
                cs₁
              (true, .node k v m cs₂)
where reduceChildren : List PQN → Bool × List PQN
  | [] => (true, [])
  | c :: rest =>
    if c.mark == .part then
      let rc := reduceN false c
      if !rc.1 then (false, rc.2 :: rest)
      else
        let rr := reduceChildren rest
        (rr.1, rc.2 :: rr.2)
    else
      let rr := reduceChildren rest
      (rr.1, c :: rr.2)

/-- Reduce from pqtree.go.  Returns the Go return value together with the
tree state after the call. -/
def Reduce (t : PQTree) (constraint : List Int) : Bool × PQTree :=
  match t.root with
  | none => (true, t)
  | some r =>
    if constraint.length ≤ 1 ∨ constraint.length = t.nLeaves then (true, t)
    else
      let r₁ := markLeaves constraint t.nLeaves (clearMarks r)
      let b := bubbleUp r₁
      if b.1 = .empty then (true, ⟨some b.2, t.nLeaves⟩)
      else
        let rr := reduceN true b.2
        (rr.1, ⟨some rr.2, t.nLeaves⟩)

/-- Swap of two positions of a list (the Go parallel assignment
`perm[a], perm[b] = perm[b], perm[a]`). -/
def listSwap {α : Type} (A : List α) (i j : Nat) : List α :=
  match A.get? i, A.get? j with
  | some x, some y => (A.set i y).set j x
  | _, _ => A

/-- One level of Heap's algorithm: `sub` enumerates permutations of the
first k-1 slots, the loop runs k iterations with the inter-iteration
swap of the iterative formulation in forEachChildPerm (pqtree.go).
Returns the emitted permutations and the final state of the slot list. -/
def heapLoop {α : Type} (sub : List α → List (List α) × List α) (k : Nat) :
    Nat → List α → List (List α) × List α
  | 0, A => ([], A)
  | cnt + 1, A =>
    let r := sub A
    if cnt = 0 then r
    else
      let i := k - (cnt + 1)
      let A₂ := if k % 2 = 0 then listSwap r.2 i (k - 1) else listSwap r.2 0 (k - 1)
      let r₂ := heapLoop sub k cnt A₂
      (r.1 ++ r₂.1, r₂.2)

/-- Heap's algorithm as a recursion on the number of active slots.  The
iterative state-array formulation of forEachChildPerm in pqtree.go emits
exactly this sequence of permutations (checked below on three and four
elements). -/
def heapGen {α : Type} : Nat → List α → List (List α) × List α
  | 0, A => ([A], A)
  | 1, A => ([A], A)
  | k + 2, A => heapLoop (heapGen (k + 1)) (k + 2) (k + 2) A

/-- All permutations of a list in the emission order of the P-node branch
of forEachChildPerm (pqtree.go). -/
def heapPerms {α : Type} (A : List α) : List (List α) :=
  (heapGen A.length A).1

/-- Ordered concatenation product: one ordering per choice of one
ordering for each child, the first child varying slowest — the emission
order of enumerateChildrenLazy in pqtree.go. -/
def prodConcat : List (List (List Nat)) → List (List Nat)
  | [] => [[]]
  | x :: rest =>
    let r := prodConcat rest
    x.flatMap (fun p => r.map (fun q => p ++ q))

/-- enumerateLazy / forEachChildPerm / enumerateChildrenLazy from
pqtree.go, as the full ordering list in emission order.  The Go code
permutes the child nodes and then enumerates each; since the child
permutations only rearrange the list, this equals permuting the list of
per-child enumerations, which is the form structural recursion needs.
Q-nodes emit the forward product then (when there are at least two
children) the reversed product. -/
def enumNode : PQN → List (List Nat)
  | .node k v _ cs =>
    if k = .leafNode then [[v]]
    else
      let enums := go cs
      if k = .qNode then
        let fwd := prodConcat enums
        if cs.length ≤ 1 then fwd else fwd ++ prodConcat enums.reverse
      else
        (heapPerms enums).flatMap prodConcat
where go : List PQN → List (List (List Nat))
  | [] => []
  | c :: rest => enumNode c :: go rest

/-- The leaf frontier of a subtree in left-to-right order (a node of
leaf kind contributes its value; the Go leaves always have empty child
lists). -/
def leafVals : PQN → List Nat
  | .node k v _ cs => if k = .leafNode then [v] else go cs
where go : List PQN → List Nat
  | [] => []
  | c :: rest => leafVals c ++ go rest

/-- No leaf-kind node is marked partial: the state of the marks after
the bubble-up phase (leaves are only ever marked empty or full), relied
on by the rewriting phase. -/
def noPartLeaf : PQN → Bool
  | .node k _ m cs => (!(k == NodeKind.leafNode) || !(m == Mark.part)) && go cs
where go : List PQN → Bool
  | [] => true
  | c :: rest => noPartLeaf c && go rest

/-- Leaf frontier of a child list. -/
def leafValsL (cs : List PQN) : List Nat := (cs.map leafVals).flatten

/-- Enumerate from pqtree.go: the callback appends until the limit is
reached, so a positive limit takes a front segment of the emission
order and a non-positive limit yields everything. -/
def Enumerate (t : PQTree) (limit : Int) : List (List Nat) :=
  match t.root with
  | none => [[]]
  | some r =>
    let results := enumNode r
    if limit ≤ 0 then results else results.take limit.toNat

/-- countPerms from pqtree.go (Go 64-bit int arithmetic; the product is
accumulated left to right exactly like the Go loop). -/
def countPerms : PQN → Int
  | .node k _ _ cs =>
    if k = .leafNode then 1
    else
      let product := go cs 1
      match k with
      | .qNode => goMul 2 product
      | _ => goMul (factorialGo cs.length) product
where go : List PQN → Int → Int
  | [], acc => acc
  | c :: rest, acc => go rest (goMul acc (countPerms c))

/-- ValidCount from pqtree.go. -/
def ValidCount (t : PQTree) : Int :=
  match t.root with
  | none => 1
  | some r => countPerms r

/-- Spec-side predicate: the elements of S occupy one contiguous block of
positions in the ordering (membership flags read e* f* e*). -/
def isContiguous (S : List Nat) (ord : List Nat) : Bool :=
  (((ord.map (fun x => decide (x ∈ S))).dropWhile (fun b => !b)).dropWhile
    (fun b => b)).all (fun b => !b)

/-- Spec-side shape well-formedness of a PQ-tree at rest (section 3 of
the spec): leaves have no children, P-nodes at least two, Q-nodes at
least three. -/
def wfShape : PQN → Bool
  | .node k _ _ cs =>
    (match k with
     | .leafNode => cs.length = 0
     | .pNode => 2 ≤ cs.length
     | .qNode => 3 ≤ cs.length) && go cs
where go : List PQN → Bool
  | [] => true
  | c :: rest => wfShape c && go rest

/-- Mark-erased root of a PQ-tree: the structural content that the marks
scratch state does not belong to. -/
def treeShape (t : PQTree) : Option PQN :=
  t.root.map clearMarks

/-! Intermediate trees of the two concrete reduction sequences used to
refute claims about Reduce. -/
def pq4a : PQTree := (Reduce (NewPQTree 4) [0, 1]).2

def pq4b : PQTree := (Reduce pq4a [1, 2]).2

def pq4c : PQTree := (Reduce pq4b [1, 3]).2

def pq5a : PQTree := (Reduce (NewPQTree 5) [0, 1]).2

def pq5b : PQTree := (Reduce pq5a [1, 2]).2

def pq5c : PQTree := (Reduce pq5b [0, 1, 2, 3]).2

def pq5d : PQTree := (Reduce pq5c [2, 4]).2

end Perm

namespace Dag

/-- Modelled from the spec: the node handle consumed by the core
(sections 3 and 6): a string ID, the effective ID used in transpose
tie-breaking, and the auxiliary flag. -/
structure GNode where
  ID : String
  effID : String
  aux : Bool
deriving DecidableEq, Repr, Inhabited

/-- Modelled from the spec: the layered-DAG interface the core consumes
(sections 3 and 6): ordered row numbers, per-row node handles, per-node
adjacency restricted to a row, whole-graph adjacency, and node lookup.
The dag package itself is not under src/. -/
structure DAG where
  rowIDs : List Int
  nodesInRow : Int → List GNode
  childrenInRow : String → Int → List String
  parentsInRow : String → Int → List String
  parents : String → List String
  children : String → List String
  node : String → Option GNode

/-- Row maps (Go map[int][]string).  none is an absent key; Go reads of
absent keys yield nil, hence the getD [] at every use. -/
def RowMap : Type := Int → Option (List String)

def updMap (m : RowMap) (k : Int) (v : List String) : RowMap :=
  fun x => if x = k then some v else m x

/-- Modelled from the spec: dag.PosMap — position of each ID in an
ordering, later occurrences overriding earlier ones like Go map
assignment. -/
def posMapGo : List String → Nat → String → Option Nat
  | [], _, _ => none
  | id :: rest, i, x =>
    match posMapGo rest (i + 1) x with
    | some j => some j
    | none => if x = id then some i else none

def posMap (order : List String) : String → Option Nat :=
  fun x => posMapGo order 0 x

/-- Modelled from the spec: dag.NodeIDs. -/
def nodeIDs (nodes : List GNode) : List String := nodes.map GNode.ID

/-- buildNodeIndex of optimal.go and the lowerIdx map of newFastGraph:
ID to row-local index, later nodes overriding earlier ones. -/
def idxMap (nodes : List GNode) : String → Option Nat :=
  posMap (nodeIDs nodes)

/-- Number of interleaved pairs among a list of (upper position, lower
position) edge endpoints: the crossing count of section 4.3 of the
spec. -/
def countInversions : List (Nat × Nat) → Nat
  | [] => 0
  | p :: rest =>
    rest.countP (fun q => decide ((p.1 < q.1 ∧ q.2 < p.2) ∨ (q.1 < p.1 ∧ p.2 < q.2))) +
      countInversions rest

/-- The (upper position, lower position) pairs of the edges between two
adjacent rows, scanning the upper ordering left to right; targets whose
index does not occur in the lower ordering contribute nothing. -/
def edgePairsIdx (tbl : List (List Nat)) (u l : List Nat) : List (Nat × Nat) :=
  u.enum.flatMap (fun pi =>
    (tbl.getD pi.2 []).filterMap (fun t => (l.indexOf? t).map (fun pc => (pi.1, pc))))

/-- Modelled from the spec: dag.CountCrossingsIdx — the crossing count
between two adjacent rows given the per-source child-index table and the
two index orderings (section 4.3; the workspace argument is a reuse
buffer and has no semantic content). -/
def countCrossingsIdx (tbl : List (List Nat)) (u l : List Nat) : Nat :=
  countInversions (edgePairsIdx tbl u l)

/-- The per-row-pair child-index table of newFastGraph (optimal.go),
which materializes the layered view of section 4.2 of the spec. -/
def rowTable (g : DAG) (upper lower : List GNode) (lowerRow : Int) : List (List Nat) :=
  upper.map (fun nd =>
    ((g.childrenInRow nd.ID lowerRow).filterMap (idxMap lower)).mergeSort
      (fun a b => decide (a ≤ b)))

/-- The edges field of newFastGraph (optimal.go). -/
def fgEdges (g : DAG) (rows : List Int) : List (List (List Nat)) :=
  (List.range (rows.length - 1)).map (fun i =>
    rowTable g (g.nodesInRow (rows.getD i 0)) (g.nodesInRow (rows.getD (i + 1) 0))
      (rows.getD (i + 1) 0))

/-- One row of toIndexPath (optimal.go): a slice of length
len(nodes) whose j-th cell is nodeIdx[order[j]] (Go zero values when the
ordering is short or an ID is unknown). -/
def toIndexRow (nodes : List GNode) (order : List String) : List Nat :=
  (List.range nodes.length).map (fun j =>
    match order.get? j with
    | some id => (idxMap nodes id).getD 0
    | none => 0)

/-- toIndexPath from optimal.go. -/
def toIndexPath (g : DAG) (rows : List Int) (order : RowMap) : List (Option (List Nat)) :=
  rows.map (fun r => some (toIndexRow (g.nodesInRow r) ((order r).getD [])))

/-- Modelled from the spec: dag.CountCrossings — the whole-graph sum
over adjacent row pairs of the pair counter, the orderings translated to
row-local indices through the layered view (sections 4.2 and 4.3). -/
def CountCrossings (g : DAG) (orders : RowMap) : Nat :=
  let rows := g.rowIDs
  ((List.range (rows.length - 1)).map (fun i =>
    countCrossingsIdx
      (rowTable g (g.nodesInRow (rows.getD i 0)) (g.nodesInRow (rows.getD (i + 1) 0))
        (rows.getD (i + 1) 0))
      (toIndexRow (g.nodesInRow (rows.getD i 0)) ((orders (rows.getD i 0)).getD []))
      (toIndexRow (g.nodesInRow (rows.getD (i + 1) 0))
        ((orders (rows.getD (i + 1) 0)).getD [])))).sum

/-- Modelled from the spec: dag.CountPairCrossingsWithPos — the
crossings contributed by the adjacent pair (a immediately left of b):
pairs of neighbor positions (x of a, y of b) with y left of x. -/
def countPairCrossingsWithPos (g : DAG) (a b : String) (adjPos : String → Option Nat)
    (useParents : Bool) : Nat :=
  let na := (if useParents then g.parents a else g.children a).filterMap adjPos
  let nb := (if useParents then g.parents b else g.children b).filterMap adjPos
  (na.map (fun x => nb.countP (fun y => decide (y < x)))).sum

end Dag

namespace RowOrdering

open Dag

/-- Modelled from the spec: dag.medianPosition — median of the
positions, the midpoint of the two central values for an even count,
nothing for an empty list (section 4.4). -/
def medianPosition (pos : List Nat) : Nat × Bool :=
  if pos.isEmpty then (0, false)
  else
    let sorted := pos.mergeSort (fun a b => decide (a ≤ b))
    let n := sorted.length
    if n % 2 = 1 then (sorted.getD (n / 2) 0, true)
    else ((sorted.getD (n / 2 - 1) 0 + sorted.getD (n / 2) 0) / 2, true)

/-- weightedMedian from barycentric.go. -/
def weightedMedian (neighbors : List String) (positions : String → Option Nat) : Nat × Bool :=
  medianPosition (neighbors.filterMap positions)

/-- nodeEntry from barycentric.go. -/
structure NodeEntry where
  id : String
  median : Nat
  hasMedian : Bool
  currentPos : Nat

/-- nodeEntry.sortKey from barycentric.go. -/
def NodeEntry.sortKey (e : NodeEntry) : Nat :=
  if e.hasMedian then e.median else e.currentPos

/-- The wmedian comparator of barycentric.go as a boolean "may stay
before" relation (cmp result at most 0), which under a stable merge
sort reproduces SortStableFunc. -/
def entLe (a b : NodeEntry) : Bool :=
  if a.sortKey < b.sortKey then true
  else if b.sortKey < a.sortKey then false
  else if a.hasMedian ∧ ¬b.hasMedian then true
  else if ¬a.hasMedian ∧ b.hasMedian then false
  else decide (a.currentPos ≤ b.currentPos)

/-- wmedian from barycentric.go. -/
def wmedian (g : DAG) (nodes : List GNode) (current fixed : List String)
    (useParents : Bool) : List String :=
  if nodes.length ≤ 1 then nodeIDs nodes
  else
    let fixedPos := posMap fixed
    let currentPos := posMap current
    let entries := nodes.map (fun n =>
      let neighbors := if useParents then g.parents n.ID else g.children n.ID
      let pos := match currentPos n.ID with
        | some p => p
        | none => current.length
      let wm := weightedMedian neighbors fixedPos
      NodeEntry.mk n.ID wm.1 wm.2 pos)
    (entries.mergeSort entLe).map NodeEntry.id

/-- The body of one index step of the transpose scan of barycentric.go:
carrying the current left element, compare-and-swap against the next.
Two handles with the same effective ID are never swapped. -/
def sweepGo (g : DAG) (adjPos : String → Option Nat) (useParents : Bool) :
    String → List String → List String × Bool
  | a, [] => ([a], false)
  | a, b :: rest =>
    let skip : Bool :=
      match g.node a, g.node b with
      | some na, some nb => decide (na.effID = nb.effID)
      | _, _ => false
    if skip then
      let r := sweepGo g adjPos useParents b rest
      (a :: r.1, r.2)
    else if countPairCrossingsWithPos g b a adjPos useParents <
        countPairCrossingsWithPos g a b adjPos useParents then
      let r := sweepGo g adjPos useParents a rest
      (b :: r.1, true)
    else
      let r := sweepGo g adjPos useParents b rest
      (a :: r.1, r.2)

/-- One full left-to-right pass of the transpose loop. -/
def sweepOnce (g : DAG) (adjPos : String → Option Nat) (useParents : Bool) :
    List String → List String × Bool
  | [] => ([], false)
  | a :: rest => sweepGo g adjPos useParents a rest

/-- The repeat-until-no-swap loop of transpose (barycentric.go), driven
by fuel.  Every swap strictly decreases the summed pair-crossing count
of the row, so the fuel supplied by transpose below is never exhausted;
on exhaustion the current order is returned. -/
def transposeLoop (g : DAG) (adjPos : String → Option Nat) (useParents : Bool) :
    Nat → List String → List String
  | 0, order => order
  | fuel + 1, order =>
    let r := sweepOnce g adjPos useParents order
    if r.2 then transposeLoop g adjPos useParents fuel r.1 else r.1

/-- Sum of pair-crossing counts over ordered pairs of the row: an upper
bound on the number of swapping passes of the transpose loop. -/
def pairCrossSum (g : DAG) (adjPos : String → Option Nat) (useParents : Bool) :
    List String → Nat
  | [] => 0
  | a :: rest =>
    (rest.map (fun b => countPairCrossingsWithPos g a b adjPos useParents)).sum +
      pairCrossSum g adjPos useParents rest

/-- transpose from barycentric.go. -/
def transpose (g : DAG) (orders : RowMap) (row adjRow : Int) (useParents : Bool) : RowMap :=
  match orders row with
  | none => orders
  | some order =>
    if order.length < 2 then orders
    else
      let adjPos := posMap ((orders adjRow).getD [])
      updMap orders row
        (transposeLoop g adjPos useParents (pairCrossSum g adjPos useParents order + 1) order)

/-- reverseOrders from barycentric.go. -/
def reverseOrders (orders : RowMap) (rows : List Int) : RowMap :=
  rows.foldl (fun m r => updMap m r ((orders r).getD []).reverse) (fun _ => none)

/-- copyOrders from barycentric.go: a defensive deep copy, the identity
in a pure embedding. -/
def copyOrders (orders : RowMap) : RowMap := orders

/-- The entry record of orderByMinParent (barycentric.go); Go's float64
average becomes an exact rational, which agrees with the float value for
orderings of realistic width. -/
structure MPEntry where
  id : String
  minPos : Nat
  avgPos : Rat

/-- The orderByMinParent comparator as a boolean "may stay before"
relation. -/
def mpLe (a b : MPEntry) : Bool :=
  if a.minPos < b.minPos then true
  else if b.minPos < a.minPos then false
  else if a.avgPos < b.avgPos then true
  else if b.avgPos < a.avgPos then false
  else decide (a.id ≤ b.id)

/-- orderByMinParent from barycentric.go. -/
def orderByMinParent (g : DAG) (nodes : List GNode) (parentOrder : List String) :
    List String :=
  let parentPos := posMap parentOrder
  let entries := nodes.map (fun n =>
    let ps := (g.parents n.ID).filterMap parentPos
    let minPos := ps.foldl (fun acc p => if p < acc then p else acc) parentOrder.length
    let avgPos : Rat := if 0 < ps.length then (ps.sum : Rat) / (ps.length : Rat) else (minPos : Rat)
    MPEntry.mk n.ID minPos avgPos)
  (entries.mergeSort mpLe).map MPEntry.id

/-- initOrders from barycentric.go. -/
def initOrders (g : DAG) (rows : List Int) (rowNodes : Int → List GNode) : RowMap :=
  if rows = [] then fun _ => none
  else
    let first := rows.headD 0
    let m0 := updMap (fun _ => none) first
      ((nodeIDs (rowNodes first)).mergeSort (fun a b => decide (a ≤ b)))
    rows.tail.foldl (fun m r =>
      if (rowNodes r).length ≠ 0 then
        updMap m r (orderByMinParent g (rowNodes r) ((m (r - 1)).getD []))
      else m) m0

/-- The bottom-up sweep of a pass (even passes of runPasses in
barycentric.go): rows 1.. in ascending order, parents fixed. -/
def upSweep (g : DAG) (rows : List Int) (rowNodes : Int → List GNode) (orders : RowMap) :
    RowMap :=
  rows.tail.foldl (fun m r =>
    let m1 := updMap m r (wmedian g (rowNodes r) ((m r).getD []) ((m (r - 1)).getD []) true)
    transpose g m1 r (r - 1) true) orders

/-- The top-down sweep of a pass (odd passes): rows up to the
second-to-last in descending order, children fixed. -/
def downSweep (g : DAG) (rows : List Int) (rowNodes : Int → List GNode) (orders : RowMap) :
    RowMap :=
  rows.dropLast.reverse.foldl (fun m r =>
    let m1 := updMap m r (wmedian g (rowNodes r) ((m r).getD []) ((m (r + 1)).getD []) false)
    transpose g m1 r (r + 1) false) orders

/-- The pass loop of runPasses (barycentric.go): fuel is the remaining
pass count, pass the current index (for parity). -/
def runPassesGo (g : DAG) (rows : List Int) (rowNodes : Int → List GNode) (passes : Nat) :
    Nat → Nat → RowMap → RowMap → Nat → Nat → RowMap × Nat
  | 0, _, _, best, bestScore, _ => (best, bestScore)
  | fuel + 1, pass, orders, best, bestScore, staleCount =>
    if bestScore = 0 then (best, bestScore)
    else
      let prevScore := bestScore
      let orders' :=
        if pass % 2 = 0 then upSweep g rows rowNodes orders
        else downSweep g rows rowNodes orders
      let score := CountCrossings g orders'
      let next :=
        if score < bestScore then (copyOrders orders', score, 0)
        else (best, bestScore, staleCount + 1)
      if 4 ≤ next.2.2 ∧ score = prevScore then (next.1, next.2.1)
      else runPassesGo g rows rowNodes passes fuel (pass + 1) orders' next.1 next.2.1 next.2.2

/-- runPasses from barycentric.go. -/
def runPasses (g : DAG) (rows : List Int) (rowNodes : Int → List GNode) (init : RowMap)
    (passes : Nat) : RowMap × Nat :=
  let orders := copyOrders init
  let best := copyOrders orders
  let bestScore := CountCrossings g orders
  runPassesGo g rows rowNodes passes passes 0 orders best bestScore 0

def defaultPasses : Nat := 24

/-- Barycentric from barycentric.go. -/
structure Barycentric where
  Passes : Int

/-- The body of Barycentric.OrderRows after the empty-rows check
(barycentric.go). -/
def baryOrderRowsMap (b : Barycentric) (g : DAG) : RowMap :=
  let rows := g.rowIDs
  let passes := if b.Passes ≤ 0 then defaultPasses else b.Passes.toNat
  let rowNodes := fun r => g.nodesInRow r
  let best := initOrders g rows rowNodes
  let bestScore := CountCrossings g best
  if bestScore = 0 then best
  else
    let r1 := runPasses g rows rowNodes best passes
    let best1 := if r1.2 < bestScore then r1.1 else best
    let bestScore1 := if r1.2 < bestScore then r1.2 else bestScore
    if bestScore1 = 0 then best1
    else
      let r2 := runPasses g rows rowNodes (reverseOrders best1 rows) passes
      if r2.2 < bestScore1 then r2.1 else best1

/-- Barycentric.OrderRows from barycentric.go; none is the Go nil map
returned for an input without rows. -/
def baryOrderRows (b : Barycentric) (g : DAG) : Option RowMap :=
  if g.rowIDs = [] then none else some (baryOrderRowsMap b g)

/-- Proof-side invariant: the mapping assigns every non-empty row of the
graph an ordering that is a permutation of the IDs of that row's
nodes. -/
def RowPermMap (g : DAG) (m : RowMap) : Prop :=
  ∀ r ∈ g.rowIDs, g.nodesInRow r ≠ [] →
    ∃ ord, m r = some ord ∧ ord.Perm ((g.nodesInRow r).map GNode.ID)

/-- Modelled from the spec: perm.Seq — the unique (identity) ordering of
a single-orderable row, 0..n-1. -/
def Seq (n : Nat) : List Nat := List.range n

/-- Modelled from the spec: perm.Generate — unconstrained permutations
of 0..n-1 (Heap order like the PQ-tree P-node enumeration), all of them
for a negative limit and a front segment otherwise. -/
def Generate (n : Nat) (limit : Int) : List (List Nat) :=
  let all := Perm.heapPerms (List.range n)
  if limit < 0 then all else all.take limit.toNat

def maxCandidatesBase : Nat := 10000

/-- calcCandidateLimit from optimal.go. -/
def calcCandidateLimit (numRows : Nat) : Nat :=
  if numRows ≤ 3 then maxCandidatesBase
  else max 100 (min 1000 (maxCandidatesBase / numRows))

/-- Spec-side clamp: x clamped to the closed interval [lo, hi]. -/
def clamp (lo hi x : Nat) : Nat := max lo (min hi x)

/-- The shared best-solution cell of the solver (optimal.go): bestScore,
bestPath and the explored counter.  In this sequential model of one
updateBest call the compare-and-swap loop collapses to its effect: a
successful CAS replaces the value it read with a strictly smaller
score. -/
structure BestCell where
  bestScore : Int
  bestPath : List (Option (List Nat))
  explored : Int

/-- updateBest from optimal.go: increment explored; publish (score,
cloned path) only when the score strictly improves.  Cancellation on a
zero score only affects scheduling and is outside the state. -/
def updateBest (st : BestCell) (path : List (Option (List Nat))) (score : Int) : BestCell :=
  let st1 : BestCell := { st with explored := st.explored + 1 }
  if score ≥ st1.bestScore then st1
  else { st1 with bestScore := score, bestPath := path }

/-- The read-only per-search context of the solver struct (optimal.go):
graph, rows, row nodes, candidate limit and the fast-graph tables. -/
structure SCtx where
  g : DAG
  rows : List Int
  rowNodes : Int → List GNode
  candLimit : Nat
  tables : List (List (List Nat))

/-- The context OptimalSearch.OrderRows builds before searching. -/
def mkCtx (g : DAG) : SCtx :=
  let rows := g.rowIDs
  { g := g
    rows := rows
    rowNodes := fun r => g.nodesInRow r
    candLimit := calcCandidateLimit rows.length
    tables := fgEdges g rows }

/-- The parent-constraint loop of applyParentConstraints (optimal.go):
walk the previous row in its fixed order, reduce the PQ-tree by every
child set of size at least 2, stopping at the first failure. -/
def applyParentLoop (g : DAG) (row : Int) (nodeIdx : String → Option Nat)
    (prevNodes : List GNode) : Perm.PQTree → List Nat → Bool × Perm.PQTree
  | t, [] => (true, t)
  | t, idx :: rest =>
    let childIDs := g.childrenInRow ((prevNodes.getD idx default).ID) row
    let constraint := childIDs.filterMap nodeIdx
    if 2 ≤ constraint.length then
      let r := Perm.Reduce t (constraint.map (fun (x : Nat) => (x : Int)))
      if !r.1 then (false, r.2)
      else applyParentLoop g row nodeIdx prevNodes r.2 rest
    else applyParentLoop g row nodeIdx prevNodes t rest

/-- The child-constraint loop of applyChildConstraints (optimal.go). -/
def applyChildLoop (g : DAG) (row : Int) (nodeIdx : String → Option Nat) :
    Perm.PQTree → List GNode → Bool × Perm.PQTree
  | t, [] => (true, t)
  | t, child :: rest =>
    let parentIDs := g.parentsInRow child.ID row
    let constraint := parentIDs.filterMap nodeIdx
    if 2 ≤ constraint.length then
      let r := Perm.Reduce t (constraint.map (fun (x : Nat) => (x : Int)))
      if !r.1 then (false, r.2)
      else applyChildLoop g row nodeIdx r.2 rest
    else applyChildLoop g row nodeIdx t rest

/-- fallbackPermutations from optimal.go. -/
def fallbackPermutations (candLimit : Nat) (n : Nat) : List (List Nat) :=
  if n ≤ 8 then Generate n (-1) else Generate n (candLimit : Int)

/-- generateC1PCandidates from optimal.go. -/
def generateC1PCandidates (c : SCtx) (depth : Nat) (nodes : List GNode)
    (prevOrder : List Nat) (prevNodes : List GNode) : List (List Nat) :=
  let n := nodes.length
  if n ≤ 1 then [Seq n]
  else
    let nodeIdx := idxMap nodes
    let tree := Perm.NewPQTree n
    let row := c.rows.getD depth 0
    let rp := applyParentLoop c.g row nodeIdx prevNodes tree prevOrder
    if !rp.1 then fallbackPermutations c.candLimit n
    else
      let rc :=
        if c.rows.length - 1 ≤ depth then (true, rp.2)
        else applyChildLoop c.g row nodeIdx rp.2 (c.rowNodes (c.rows.getD (depth + 1) 0))
      if !rc.1 then fallbackPermutations c.candLimit n
      else
        let limit : Int := if n ≤ 8 then Perm.ValidCount rc.2 else (c.candLimit : Int)
        let perms := Perm.Enumerate rc.2 limit
        if perms.isEmpty then fallbackPermutations c.candLimit n else perms

/-- Modelled from the spec: barycenterDeviationIndices (not under src/)
— the summed deviation of each node's position from the barycenter of
its neighbors in the fixed previous row (sections 4.4 and 4.5), with
Go's float64 as an exact rational. -/
def barycenterDeviationIndices (g : DAG) (nodes : List GNode) (idxOrder : List Nat)
    (prevPos : String → Option Nat) (useParents : Bool) : Rat :=
  (idxOrder.enum.map (fun pi =>
    let nd := nodes.getD pi.2 default
    let ps := (if useParents then g.parents nd.ID else g.children nd.ID).filterMap prevPos
    if ps.isEmpty then 0 else |(pi.1 : Rat) - (ps.sum : Rat) / (ps.length : Rat)|)).sum

/-- sortByBarycenter from optimal.go (Go uses an unstable comparison
sort; ties may come out in a different order, which no claim depends
on). -/
def sortByBarycenter (perms : List (List Nat)) (g : DAG) (nodes : List GNode)
    (prevPos : String → Option Nat) : List (List Nat) :=
  perms.mergeSort (fun a b =>
    decide (barycenterDeviationIndices g nodes a prevPos true ≤
      barycenterDeviationIndices g nodes b prevPos true))

/-- The prevPos map construction of the dfs and of
generateStartPermutations (optimal.go), later writes overriding. -/
def updStr (m : String → Option Nat) (k : String) (v : Nat) : String → Option Nat :=
  fun x => if x = k then some v else m x

def mkPrevPos (prevNodes : List GNode) (prevOrder : List Nat) : String → Option Nat :=
  prevOrder.enum.foldl (fun m pi => updStr m ((prevNodes.getD pi.2 default).ID) pi.1)
    (fun _ => none)

/-- The candidate list the dfs explores at a row (optimal.go):
generateC1PCandidates followed by the barycenter sort. -/
def candidatesAt (c : SCtx) (depth : Nat) (path : List (Option (List Nat))) :
    List (List Nat) :=
  let rowID := c.rows.getD depth 0
  let nodes := c.rowNodes rowID
  let prevOrder := (path.getD (depth - 1) none).getD []
  let prevNodes := c.rowNodes (c.rows.getD (depth - 1) 0)
  let prevPos := mkPrevPos prevNodes prevOrder
  sortByBarycenter (generateC1PCandidates c depth nodes prevOrder prevNodes) c.g nodes prevPos

/-- findParallelRow from optimal.go. -/
def findParallelRowGo (rowNodes : Int → List GNode) : List Int → Nat → Nat
  | [], _ => 0
  | r :: rest, i => if 1 < (rowNodes r).length then i else findParallelRowGo rowNodes rest (i + 1)

def findParallelRow (c : SCtx) : Nat := findParallelRowGo c.rowNodes c.rows 0

/-- buildPrefix from optimal.go: the single-ordering rows before the
parallel row and their accumulated crossing score. -/
def buildPref (c : SCtx) : Nat → List (Option (List Nat)) × Nat
  | 0 => (List.replicate c.rows.length none, 0)
  | d + 1 =>
    let r := buildPref c d
    let ord := Seq ((c.rowNodes (c.rows.getD d 0)).length)
    let sc :=
      if 0 < d then
        r.2 + countCrossingsIdx (c.tables.getD (d - 1) []) ((r.1.getD (d - 1) none).getD []) ord
      else r.2
    (r.1.set d (some ord), sc)

/-- generateStartPermutations from optimal.go. -/
def generateStartPermutations (c : SCtx) (parallelRow : Nat)
    (pre : List (Option (List Nat))) (workerLimit : Nat) : List (List Nat) :=
  let parallelNodes := c.rowNodes (c.rows.getD parallelRow 0)
  let n := parallelNodes.length
  if parallelRow = 0 then
    if n ≤ 8 then Generate n (-1) else Generate n (workerLimit : Int)
  else
    let prevNodes := c.rowNodes (c.rows.getD (parallelRow - 1) 0)
    let prevOrd := (pre.getD (parallelRow - 1) none).getD []
    let starts := generateC1PCandidates c parallelRow parallelNodes prevOrd prevNodes
    let starts := if workerLimit < starts.length then starts.take workerLimit else starts
    sortByBarycenter starts c.g parallelNodes (mkPrevPos prevNodes prevOrd)

/-- Proof-side invariant: the PQ-tree has a root holding a permutation
of the leaf indices 0..n-1. -/
def rootPerm (n : Nat) (t : Perm.PQTree) : Prop :=
  ∃ r, t.root = some r ∧ (Perm.leafVals r).Perm (List.range n)

/-- Proof-side: the crossing score accumulated along the first d rows of
a partial index path (the running score the dfs carries). -/
def scoreSum (c : SCtx) (path : List (Option (List Nat))) (d : Nat) : Nat :=
  ((List.range d).map (fun i =>
    if i = 0 then 0
    else countCrossingsIdx (c.tables.getD (i - 1) [])
      ((path.getD (i - 1) none).getD []) ((path.getD i none).getD []))).sum

/-- The dfs of optimal.go as a reachability relation: which (depth,
running score, partial path) triples some worker task can be invoked
with, for some schedule.  Pruning against the shared bound and
cancellation only remove reachable calls, so the relation
over-approximates every schedule; the scores and paths are exactly the
ones the code computes. -/
inductive DfsReach (c : SCtx) (workers : Nat) : Nat → Nat → List (Option (List Nat)) → Prop where
  | start (s : List Nat)
      (hs : s ∈ generateStartPermutations c (findParallelRow c)
        (buildPref c (findParallelRow c)).1 (workers * 100)) :
      DfsReach c workers (findParallelRow c + 1)
        ((buildPref c (findParallelRow c)).2 +
          (if 0 < findParallelRow c then
            countCrossingsIdx (c.tables.getD (findParallelRow c - 1) [])
              (((buildPref c (findParallelRow c)).1.getD (findParallelRow c - 1) none).getD [])
              s
          else 0))
        ((buildPref c (findParallelRow c)).1.set (findParallelRow c) (some s))
  | emptyRow {d sc path} (h : DfsReach c workers d sc path) (hd : d < c.rows.length)
      (he : c.rowNodes (c.rows.getD d 0) = []) :
      DfsReach c workers (d + 1) sc (path.set d none)
  | cand {d sc path} (cnd : List Nat) (h : DfsReach c workers d sc path)
      (hd : d < c.rows.length) (hne : c.rowNodes (c.rows.getD d 0) ≠ [])
      (hc : cnd ∈ candidatesAt c d path) :
      DfsReach c workers (d + 1)
        (sc + countCrossingsIdx (c.tables.getD (d - 1) []) ((path.getD (d - 1) none).getD []) cnd)
        (path.set d (some cnd))

/-- The values the shared bestScore cell can hold: the barycentric bound
or any published complete-path score, each write strictly below the
value it replaced (updateBest's compare-and-swap). -/
inductive BestVal (c : SCtx) (workers : Nat) (initScore : Nat) : Nat → Prop where
  | base : BestVal c workers initScore initScore
  | step {v s path} (hv : BestVal c workers initScore v)
      (hp : DfsReach c workers c.rows.length s path) (hlt : s < v) :
      BestVal c workers initScore s

/-- The values the shared bestPath cell can hold: the initial index path
or any path published together with an improving score. -/
inductive BestPathR (c : SCtx) (workers : Nat) (initScore : Nat)
    (initPath : List (Option (List Nat))) : List (Option (List Nat)) → Prop where
  | base : BestPathR c workers initScore initPath initPath
  | step {v s path} (hv : BestVal c workers initScore v)
      (hp : DfsReach c workers c.rows.length s path) (hlt : s < v) :
      BestPathR c workers initScore initPath path

/-- toStringOrder from optimal.go (nil path cells are skipped; the map
gets one write per row in row order). -/
def toStringOrder (rowNodes : Int → List GNode) (rows : List Int)
    (path : List (Option (List Nat))) : RowMap :=
  rows.enum.foldl (fun m ir =>
    match path.getD ir.1 none with
    | none => m
    | some idx => updMap m ir.2 (idx.map (fun j => ((rowNodes ir.2).getD j default).ID)))
    (fun _ => none)

/-- OptimalSearch.OrderRows from optimal.go as a relation between the
input graph and the possible results across schedules, worker counts and
timeouts: nil for an input without rows; the barycentric ordering when
it is already crossing-free; otherwise the materialization of whatever
the bestPath cell holds when the workers are done.  Workers is the
GOMAXPROCS-dependent start cap. -/
def OrderRowsRel (g : DAG) (workers : Nat) (result : Option RowMap) : Prop :=
  (g.rowIDs = [] ∧ result = none) ∨
  (g.rowIDs ≠ [] ∧
    (let initial := baryOrderRowsMap ⟨0⟩ g
     let initScore := CountCrossings g initial
     (initScore = 0 ∧ result = some initial) ∨
     (initScore ≠ 0 ∧
       ∃ path, BestPathR (mkCtx g) workers initScore (toIndexPath g g.rowIDs initial) path ∧
         result = some (toStringOrder (mkCtx g).rowNodes g.rowIDs path))))

/-- A one-row, one-node graph used to instantiate the solver results. -/
def gW : DAG :=
  { rowIDs := [0]
    nodesInRow := fun r => if r = 0 then [⟨"a", "a", false⟩] else []
    childrenInRow := fun _ _ => []
    parentsInRow := fun _ _ => []
    parents := fun _ => []
    children := fun _ => []
    node := fun _ => none }

/-- The graph with no rows at all. -/
def gEmpty : DAG :=
  { rowIDs := []
    nodesInRow := fun _ => []
    childrenInRow := fun _ _ => []
    parentsInRow := fun _ _ => []
    parents := fun _ => []
    children := fun _ => []
    node := fun _ => none }

end RowOrdering

namespace Perm

theorem PQN.sizeOf_lt_of_mem {c : PQN} {k v m} {cs : List PQN}
    (h : c ∈ cs) : sizeOf c < sizeOf (PQN.node k v m cs) := by
  have := List.sizeOf_lt_of_mem h
  simp only [PQN.node.sizeOf_spec]
  omega

/-- Induction principle for the nested inductive PQN. -/
theorem PQN.inducOn {motive : PQN → Prop}
    (h : ∀ k v m cs, (∀ c ∈ cs, motive c) → motive (.node k v m cs)) :
    ∀ t, motive t := by
  have H : ∀ n (t : PQN), sizeOf t ≤ n → motive t := by
    intro n
    induction n with
    | zero =>
      intro t ht
      cases t with
      | node k v m cs =>
        simp only [PQN.node.sizeOf_spec] at ht
        omega
    | succ n ih =>
      intro t ht
      cases t with
      | node k v m cs =>
        apply h
        intro c hc
        apply ih
        have := PQN.sizeOf_lt_of_mem (k := k) (v := v) (m := m) hc
        omega
  intro t
  exact H (sizeOf t) t le_rfl

theorem listSwap_perm {α : Type} [DecidableEq α] (A : List α) (i j : Nat) :
    (listSwap A i j).Perm A := by
  unfold listSwap
  match hi : A.get? i, hj : A.get? j with
  | none, _ => exact List.Perm.refl A
  | some x, none => exact List.Perm.refl A
  | some x, some y =>
    have hi' : i < A.length := by
      by_contra hcon
      rw [List.get?_eq_none.2 (by omega)] at hi
      exact Option.noConfusion hi
    have hj' : j < A.length := by
      by_contra hcon
      rw [List.get?_eq_none.2 (by omega)] at hj
      exact Option.noConfusion hj
    have hx : A[i] = x := by
      rw [List.get?_eq_getElem? A i, List.getElem?_eq_getElem hi'] at hi
      exact Option.some.inj hi
    have hy : A[j] = y := by
      rw [List.get?_eq_getElem? A j, List.getElem?_eq_getElem hj'] at hj
      exact Option.some.inj hj
    show ((A.set i y).set j x).Perm A
    by_cases hij : i = j
    · subst hij
      have hxy : x = y := hx.symm.trans hy
      subst hxy
      rw [List.set_set]
      rw [List.perm_iff_count]
      intro b
      have hxcount : x = b → 1 ≤ A.count b := by
        intro hb
        refine List.count_pos_iff.2 ?_
        rw [← hb, ← hx]
        exact List.getElem_mem _
      rw [List.count_set x b A i hi', hx]
      split_ifs with h1
      · simp only [beq_iff_eq] at h1
        have := hxcount h1
        omega
      · omega
    · rw [List.perm_iff_count]
      intro b
      have hxcount : x = b → 1 ≤ A.count b := by
        intro hb
        refine List.count_pos_iff.2 ?_
        rw [← hb, ← hx]
        exact List.getElem_mem _
      have hycount : y = b → 1 ≤ A.count b := by
        intro hb
        refine List.count_pos_iff.2 ?_
        rw [← hb, ← hy]
        exact List.getElem_mem _
      have hj2 : j < (A.set i y).length := by simpa using hj'
      have hget : (A.set i y)[j] = A[j] := by
        rw [List.getElem_set]
        simp [hij]
      rw [List.count_set x b (A.set i y) j (by simpa using hj'),
        List.count_set y b A i hi', hget, hx, hy]
      split_ifs with h1 h2
      · have := hxcount (by simpa using h1)
        omega
      · have := hxcount (by simpa using h1)
        omega
      · omega
      · omega

theorem heapLoop_perm {α : Type} [DecidableEq α]
    (sub : List α → List (List α) × List α)
    (hsub : ∀ A : List α, (∀ B ∈ (sub A).1, B.Perm A) ∧ (sub A).2.Perm A) (k : Nat) :
    ∀ cnt (A : List α), (∀ B ∈ (heapLoop sub k cnt A).1, B.Perm A) ∧
      (heapLoop sub k cnt A).2.Perm A := by
  intro cnt
  induction cnt with
  | zero =>
    intro A
    exact ⟨fun B hB => absurd hB (List.not_mem_nil B), List.Perm.refl A⟩
  | succ cnt ih =>
    intro A
    rw [heapLoop]
    by_cases hcnt : cnt = 0
    · simp only [hcnt, if_pos rfl]
      exact hsub A
    · simp only [if_neg hcnt]
      have hA2 : (if k % 2 = 0 then listSwap (sub A).2 (k - (cnt + 1)) (k - 1)
          else listSwap (sub A).2 0 (k - 1)).Perm A := by
        by_cases hk : k % 2 = 0
        · simp only [if_pos hk]
          exact (listSwap_perm _ _ _).trans (hsub A).2
        · simp only [if_neg hk]
          exact (listSwap_perm _ _ _).trans (hsub A).2
      have hrec := ih (if k % 2 = 0 then listSwap (sub A).2 (k - (cnt + 1)) (k - 1)
        else listSwap (sub A).2 0 (k - 1))
      constructor
      · intro B hB
        rw [List.mem_append] at hB
        rcases hB with hB | hB
        · exact (hsub A).1 B hB
        · exact ((hrec.1 B hB).trans hA2)
      · exact hrec.2.trans hA2

theorem heapGen_perm {α : Type} [DecidableEq α] :
    ∀ (k : Nat) (A : List α), (∀ B ∈ (heapGen k A).1, B.Perm A) ∧ (heapGen k A).2.Perm A := by
  intro k
  induction k using Nat.strong_induction_on with
  | _ k ih =>
    match k with
    | 0 =>
      intro A
      refine ⟨fun B hB => ?_, List.Perm.refl A⟩
      rw [heapGen] at hB
      simp only [List.mem_singleton] at hB
      rw [hB]
    | 1 =>
      intro A
      refine ⟨fun B hB => ?_, List.Perm.refl A⟩
      rw [heapGen] at hB
      simp only [List.mem_singleton] at hB
      rw [hB]
    | (k + 2) =>
      intro A
      rw [heapGen]
      exact heapLoop_perm (heapGen (k + 1)) (ih (k + 1) (by omega)) (k + 2) (k + 2) A

/-- Every list emitted by the Heap enumeration is a permutation of the
input. -/
theorem heapPerms_perm {α : Type} [DecidableEq α] {A B : List α}
    (h : B ∈ heapPerms A) : B.Perm A :=
  (heapGen_perm A.length A).1 B h

theorem enumNode_go_eq (cs : List PQN) : enumNode.go cs = cs.map enumNode := by
  induction cs with
  | nil => rfl
  | cons c rest ih => simp [enumNode.go, ih]

theorem leafVals_go_eq (cs : List PQN) : leafVals.go cs = (cs.map leafVals).flatten := by
  induction cs with
  | nil => rfl
  | cons c rest ih => simp [leafVals.go, ih]

/-- Elements of the concatenation product are flattened selections. -/
theorem prodConcat_mem {xs : List (List (List Nat))} {q : List Nat}
    (h : q ∈ prodConcat xs) :
    ∃ choice, List.Forall₂ (fun c X => c ∈ X) choice xs ∧ q = choice.flatten := by
  induction xs generalizing q with
  | nil =>
    rw [prodConcat] at h
    simp only [List.mem_singleton] at h
    exact ⟨[], List.Forall₂.nil, by simp [h]⟩
  | cons x rest ih =>
    rw [prodConcat] at h
    simp only [List.mem_flatMap, List.mem_map] at h
    obtain ⟨p, hp, q', hq', rfl⟩ := h
    obtain ⟨choice, hch, rfl⟩ := ih hq'
    exact ⟨p :: choice, List.Forall₂.cons hp hch, by simp⟩

/-- Pointwise permutations flatten to a permutation. -/
theorem flatten_perm_of_forall₂ {l₁ l₂ : List (List Nat)}
    (h : List.Forall₂ List.Perm l₁ l₂) : l₁.flatten.Perm l₂.flatten := by
  induction h with
  | nil => exact List.Perm.refl []
  | cons hab _ ih => simpa using hab.append ih

/-- Selecting one member from each enumeration list and flattening gives
a permutation of the flattened base lists. -/
theorem choice_flatten_perm {xs : List (List (List Nat))} {bases : List (List Nat)}
    {choice : List (List Nat)}
    (hforall : List.Forall₂ (fun X b => ∀ q ∈ X, q.Perm b) xs bases)
    (hch : List.Forall₂ (fun c X => c ∈ X) choice xs) :
    choice.flatten.Perm bases.flatten := by
  induction hforall generalizing choice with
  | nil =>
    cases hch
    exact List.Perm.refl _
  | cons hXb hrest ih =>
    cases hch with
    | cons hc hch' => simpa using (hXb _ hc).append (ih hch')

/-- Every ordering emitted for a node is a permutation of its leaf
frontier. -/
theorem enumNode_perm : ∀ t : PQN, ∀ p ∈ enumNode t, p.Perm (leafVals t) := by
  apply PQN.inducOn
  intro k v m cs ih p hp
  rw [enumNode, enumNode_go_eq] at hp
  rw [leafVals]
  by_cases hk : k = .leafNode
  · rw [if_pos hk] at hp ⊢
    simp only [List.mem_singleton] at hp
    rw [hp]
  · rw [if_neg hk] at hp ⊢
    rw [leafVals_go_eq]
    have hforall : List.Forall₂ (fun X b => ∀ q ∈ X, q.Perm b) (cs.map enumNode)
        (cs.map leafVals) := by
      rw [List.forall₂_map_left_iff, List.forall₂_map_right_iff]
      exact List.forall₂_same.2 ih
    by_cases hq : k = .qNode
    · rw [if_pos hq] at hp
      by_cases hlen : cs.length ≤ 1
      · rw [if_pos hlen] at hp
        obtain ⟨choice, hch, rfl⟩ := prodConcat_mem hp
        exact choice_flatten_perm hforall hch
      · rw [if_neg hlen, List.mem_append] at hp
        rcases hp with hp | hp
        · obtain ⟨choice, hch, rfl⟩ := prodConcat_mem hp
          exact choice_flatten_perm hforall hch
        · obtain ⟨choice, hch, rfl⟩ := prodConcat_mem hp
          rw [← List.map_reverse] at hch
          have hforall2 : List.Forall₂ (fun X b => ∀ q ∈ X, q.Perm b)
              (cs.reverse.map enumNode) (cs.reverse.map leafVals) := by
            rw [List.forall₂_map_left_iff, List.forall₂_map_right_iff]
            exact List.forall₂_same.2 (fun c hc => ih c (List.mem_reverse.1 hc))
          refine (choice_flatten_perm hforall2 hch).trans ?_
          rw [List.map_reverse]
          exact (List.reverse_perm _).flatten
    · rw [if_neg hq, List.mem_flatMap] at hp
      obtain ⟨σ, hσ, hpσ⟩ := hp
      have hσperm : σ.Perm (cs.map enumNode) := heapPerms_perm hσ
      obtain ⟨choice, hch, rfl⟩ := prodConcat_mem hpσ
      obtain ⟨w, hw, hwperm⟩ := List.perm_comp_forall₂ hσperm.symm hch.flip
      refine ((hwperm.symm).flatten).trans ?_
      exact choice_flatten_perm hforall hw.flip

theorem clearMarks_go_eq (cs : List PQN) : clearMarks.go cs = cs.map clearMarks := by
  induction cs with
  | nil => rfl
  | cons c rest ih => simp [clearMarks.go, ih]

theorem markLeaves_go_eq (S : List Int) (n : Nat) (cs : List PQN) :
    markLeaves.go S n cs = cs.map (markLeaves S n) := by
  induction cs with
  | nil => rfl
  | cons c rest ih => simp [markLeaves.go, ih]

theorem noPartLeaf_go_iff (cs : List PQN) :
    noPartLeaf.go cs = true ↔ ∀ c ∈ cs, noPartLeaf c = true := by
  induction cs with
  | nil => simp [noPartLeaf.go]
  | cons c rest ih => simp [noPartLeaf.go, ih]

theorem noPartLeaf_clearMarks : ∀ t : PQN, noPartLeaf (clearMarks t) = true := by
  apply PQN.inducOn
  intro k v m cs ih
  rw [clearMarks, clearMarks_go_eq, noPartLeaf]
  rw [Bool.and_eq_true, noPartLeaf_go_iff]
  constructor
  · rw [Bool.or_eq_true]
    exact Or.inr rfl
  · intro c hc
    rw [List.mem_map] at hc
    obtain ⟨c₀, hc₀, rfl⟩ := hc
    exact ih c₀ hc₀

theorem noPartLeaf_markLeaves (S : List Int) (n : Nat) :
    ∀ t : PQN, noPartLeaf t = true → noPartLeaf (markLeaves S n t) = true := by
  apply PQN.inducOn
  intro k v m cs ih ht
  rw [noPartLeaf, Bool.and_eq_true, noPartLeaf_go_iff] at ht
  rw [markLeaves]
  by_cases hcond : k = .leafNode ∧ 0 ≤ (v : Int) ∧ (v : Int) < (n : Int) ∧ (v : Int) ∈ S
  · rw [if_pos hcond, noPartLeaf, Bool.and_eq_true, noPartLeaf_go_iff]
    refine ⟨?_, ht.2⟩
    rw [Bool.or_eq_true]
    exact Or.inr rfl
  · rw [if_neg hcond, noPartLeaf, Bool.and_eq_true, noPartLeaf_go_iff, markLeaves_go_eq]
    refine ⟨ht.1, ?_⟩
    intro c hc
    rw [List.mem_map] at hc
    obtain ⟨c₀, hc₀, rfl⟩ := hc
    exact ih c₀ hc₀ (ht.2 c₀ hc₀)

theorem bubbleUp_go_snd (cs : List PQN) :
    (bubbleUp.go cs).2.2 = cs.map (fun c => (bubbleUp c).2) := by
  induction cs with
  | nil => rfl
  | cons c rest ih =>
    rw [bubbleUp.go]
    match (bubbleUp c).1 with
    | .full => simpa using ih
    | .part => simpa using ih
    | .unmarked => simpa using ih
    | .empty => simpa using ih

theorem noPartLeaf_bubbleUp :
    ∀ t : PQN, noPartLeaf t = true → noPartLeaf (bubbleUp t).2 = true := by
  apply PQN.inducOn
  intro k v m cs ih ht
  rw [noPartLeaf, Bool.and_eq_true, noPartLeaf_go_iff] at ht
  rw [bubbleUp]
  by_cases hk : k = .leafNode
  · subst hk
    rw [if_pos rfl]
    rw [noPartLeaf, Bool.and_eq_true, noPartLeaf_go_iff]
    refine ⟨?_, ht.2⟩
    rw [Bool.or_eq_true]
    right
    by_cases hm : m = .unmarked
    · rw [if_pos hm]
      rfl
    · rw [if_neg hm]
      have h1 := ht.1
      rw [Bool.or_eq_true] at h1
      rcases h1 with h | h
      · exact Bool.noConfusion h
      · exact h
  · rw [if_neg hk]
    simp only
    rw [noPartLeaf, Bool.and_eq_true, noPartLeaf_go_iff]
    constructor
    · rw [Bool.or_eq_true]
      left
      rw [Bool.not_eq_true']
      rw [beq_eq_false_iff_ne]
      exact hk
    · intro c hc
      rw [bubbleUp_go_snd, List.mem_map] at hc
      obtain ⟨c₀, hc₀, rfl⟩ := hc
      exact ih c₀ hc₀ (ht.2 c₀ hc₀)

theorem leafVals_clearMarks : ∀ t : PQN, leafVals (clearMarks t) = leafVals t := by
  apply PQN.inducOn
  intro k v m cs ih
  rw [clearMarks, leafVals, leafVals, clearMarks_go_eq]
  by_cases hk : k = .leafNode
  · rw [if_pos hk, if_pos hk]
  · rw [if_neg hk, if_neg hk, leafVals_go_eq, leafVals_go_eq, List.map_map]
    congr 1
    exact List.map_congr_left (fun c hc => by simp [ih c hc])

theorem leafVals_markLeaves (S : List Int) (n : Nat) :
    ∀ t : PQN, leafVals (markLeaves S n t) = leafVals t := by
  apply PQN.inducOn
  intro k v m cs ih
  rw [markLeaves]
  by_cases hcond : k = .leafNode ∧ 0 ≤ (v : Int) ∧ (v : Int) < (n : Int) ∧ (v : Int) ∈ S
  · rw [if_pos hcond, leafVals, leafVals]
  · rw [if_neg hcond, leafVals, leafVals]
    by_cases hk : k = .leafNode
    · simp only [if_pos hk]
    · rw [if_neg hk, if_neg hk, markLeaves_go_eq, leafVals_go_eq, leafVals_go_eq, List.map_map]
      congr 1
      exact List.map_congr_left (fun c hc => by simp [ih c hc])

theorem leafVals_bubbleUp : ∀ t : PQN, leafVals (bubbleUp t).2 = leafVals t := by
  apply PQN.inducOn
  intro k v m cs ih
  rw [bubbleUp]
  by_cases hk : k = .leafNode
  · rw [if_pos hk]
    simp only [leafVals, if_pos hk]
  · rw [if_neg hk]
    simp only [leafVals, if_neg hk]
    rw [leafVals_go_eq, leafVals_go_eq, bubbleUp_go_snd, List.map_map]
    congr 1
    exact List.map_congr_left (fun c hc => by simp [ih c hc])

theorem leafValsL_append (l₁ l₂ : List PQN) :
    leafValsL (l₁ ++ l₂) = leafValsL l₁ ++ leafValsL l₂ := by
  simp [leafValsL]

theorem leafValsL_perm {l₁ l₂ : List PQN} (h : l₁.Perm l₂) :
    (leafValsL l₁).Perm (leafValsL l₂) :=
  (h.map leafVals).flatten

theorem leafValsL_filter_perm (p : PQN → Bool) (cs : List PQN) :
    (leafValsL (cs.filter p) ++ leafValsL (cs.filter (fun c => !p c))).Perm
      (leafValsL cs) := by
  rw [← leafValsL_append]
  exact leafValsL_perm (List.filter_append_perm p cs)

theorem filter_or_perm (p q : PQN → Bool) (cs : List PQN)
    (hdisj : ∀ c ∈ cs, ¬(p c = true ∧ q c = true)) :
    (cs.filter (fun c => p c || q c)).Perm (cs.filter p ++ cs.filter q) := by
  induction cs with
  | nil => simp
  | cons c rest ih =>
    have hrest := ih (fun x hx => hdisj x (List.mem_cons_of_mem c hx))
    by_cases hp : p c = true
    · have hq : q c = false :=
        Bool.eq_false_iff.2 (fun h => hdisj c (List.mem_cons_self c rest) ⟨hp, h⟩)
      simp only [List.filter_cons, hp, hq, Bool.true_or]
      simpa using hrest.cons c
    · have hp' : p c = false := Bool.eq_false_iff.2 hp
      by_cases hq : q c = true
      · simp only [List.filter_cons, hp', hq, Bool.false_or]
        refine List.Perm.trans (hrest.cons c) ?_
        exact (List.perm_middle).symm
      · have hq' : q c = false := Bool.eq_false_iff.2 hq
        simp only [List.filter_cons, hp', hq', Bool.false_or]
        simpa using hrest

theorem replaceRun_go_true (p : PQN → Bool) (nd : PQN) (cs : List PQN) :
    replaceRun.go p nd cs true = cs.filter (fun c => !p c) := by
  induction cs with
  | nil => rfl
  | cons c rest ih =>
    rw [replaceRun.go]
    by_cases hp : p c = true
    · rw [if_pos hp, ih, List.filter_cons]
      simp [hp]
    · have hp' : p c = false := Bool.eq_false_iff.2 hp
      rw [if_neg (by simp [hp']), ih, List.filter_cons]
      simp [hp']

theorem replaceRun_leafVals {p : PQN → Bool} {nd : PQN} (cs : List PQN)
    (hnd : (leafVals nd).Perm (leafValsL (cs.filter p))) :
    (leafValsL (replaceRun p nd cs)).Perm (leafValsL cs) := by
  rw [replaceRun]
  induction cs with
  | nil =>
    exact List.Perm.refl _
  | cons c rest ih =>
    rw [replaceRun.go]
    by_cases hp : p c = true
    · rw [if_pos hp, if_neg (by simp), replaceRun_go_true]
      show (leafValsL (nd :: rest.filter (fun c => !p c))).Perm (leafValsL (c :: rest))
      have h1 : leafValsL (nd :: rest.filter (fun c => !p c)) =
          leafVals nd ++ leafValsL (rest.filter (fun c => !p c)) := by
        simp [leafValsL]
      have h2 : leafValsL (c :: rest) = leafVals c ++ leafValsL rest := by
        simp [leafValsL]
      rw [h1, h2]
      have h3 : leafValsL ((c :: rest).filter p) =
          leafVals c ++ leafValsL (rest.filter p) := by
        rw [List.filter_cons, if_pos hp]
        simp [leafValsL]
      rw [h3] at hnd
      refine (hnd.append_right _).trans ?_
      rw [List.append_assoc]
      refine List.Perm.append_left (leafVals c) ?_
      exact leafValsL_filter_perm p rest
    · have hp' : p c = false := Bool.eq_false_iff.2 hp
      rw [if_neg (by simp [hp'])]
      show (leafValsL (c :: replaceRun.go p nd rest false)).Perm (leafValsL (c :: rest))
      have h1 : leafValsL (c :: replaceRun.go p nd rest false) =
          leafVals c ++ leafValsL (replaceRun.go p nd rest false) := by
        simp [leafValsL]
      have h2 : leafValsL (c :: rest) = leafVals c ++ leafValsL rest := by
        simp [leafValsL]
      rw [h1, h2]
      refine List.Perm.append_left (leafVals c) ?_
      have hnd' : (leafVals nd).Perm (leafValsL (rest.filter p)) := by
        have : (c :: rest).filter p = rest.filter p := by
          rw [List.filter_cons, if_neg (by simp [hp'])]
        rw [this] at hnd
        exact hnd
      exact ih hnd'

theorem replaceRun_mem {p : PQN → Bool} {nd : PQN} {cs : List PQN} :
    ∀ x ∈ replaceRun p nd cs, x = nd ∨ x ∈ cs := by
  rw [replaceRun]
  have hgo : ∀ (l : List PQN) (fl : Bool), ∀ x ∈ replaceRun.go p nd l fl, x = nd ∨ x ∈ l := by
    intro l
    induction l with
    | nil =>
      intro fl x hx
      rw [replaceRun.go] at hx
      exact absurd hx (List.not_mem_nil x)
    | cons c rest ih =>
      intro fl x hx
      rw [replaceRun.go] at hx
      by_cases hp : p c = true
      · rw [if_pos hp] at hx
        by_cases hfl : fl = true
        · rw [if_pos hfl] at hx
          rcases ih true x hx with h | h
          · exact Or.inl h
          · exact Or.inr (List.mem_cons_of_mem c h)
        · rw [if_neg hfl] at hx
          rcases List.mem_cons.1 hx with h | h
          · exact Or.inl h
          · rcases ih true x h with h2 | h2
            · exact Or.inl h2
            · exact Or.inr (List.mem_cons_of_mem c h2)
      · rw [if_neg hp] at hx
        rcases List.mem_cons.1 hx with h | h
        · exact Or.inr (h ▸ List.mem_cons_self c rest)
        · rcases ih fl x h with h2 | h2
          · exact Or.inl h2
          · exact Or.inr (List.mem_cons_of_mem c h2)
  exact hgo cs false

theorem mergeQNodes_leafVals (cs : List PQN) (idx : Nat) :
    (leafValsL (mergeQNodes cs idx)).Perm (leafValsL cs) := by
  match hidx : cs.get? idx with
  | none =>
    have heq : mergeQNodes cs idx = cs := by
      unfold mergeQNodes
      rw [hidx]
    rw [heq]
  | some child =>
    by_cases hkind : child.kind ≠ .qNode
    · have heq : mergeQNodes cs idx = cs := by
        unfold mergeQNodes
        rw [hidx]
        simp [hkind]
      rw [heq]
    · have heq : mergeQNodes cs idx = (cs.take idx ++
          (if mergeRev cs idx child then child.children.reverse else child.children)) ++
          cs.drop (idx + 1) := by
        unfold mergeQNodes
        rw [hidx]
        simp [hkind]
      have hlt : idx < cs.length := by
        by_contra hcon
        rw [List.get?_eq_none.2 (by omega)] at hidx
        exact Option.noConfusion hidx
      have hchild : cs[idx] = child := by
        rw [List.get?_eq_getElem? cs idx, List.getElem?_eq_getElem hlt] at hidx
        exact Option.some.inj hidx
      have hsplit : cs = cs.take idx ++ cs[idx] :: cs.drop (idx + 1) := by
        conv_lhs => rw [← List.take_append_drop idx cs]
        rw [List.getElem_cons_drop]
      have hkq : child.kind = .qNode := not_not.1 hkind
      have hleafchild : leafVals child = leafValsL child.children := by
        match child with
        | .node ck cv cm ccs =>
          simp only [PQN.kind] at hkq
          rw [leafVals, if_neg (by rw [hkq]; intro hcon; exact NodeKind.noConfusion hcon),
            leafVals_go_eq]
          rfl
      have hccs : (leafValsL (if mergeRev cs idx child then child.children.reverse
          else child.children)).Perm (leafVals child) := by
        rw [hleafchild]
        by_cases hrev : mergeRev cs idx child
        · rw [if_pos hrev]
          exact leafValsL_perm (List.reverse_perm _)
        · rw [if_neg hrev]
      rw [heq]
      conv_rhs => rw [hsplit]
      rw [leafValsL_append, leafValsL_append, leafValsL_append, hchild]
      have hmid : leafValsL (child :: cs.drop (idx + 1)) =
          leafVals child ++ leafValsL (cs.drop (idx + 1)) := by
        simp [leafValsL]
      rw [hmid, List.append_assoc]
      refine List.Perm.append_left _ ?_
      exact hccs.append_right _

theorem leafVals_internal {k : NodeKind} (v : Nat) (m : Mark) (cs : List PQN)
    (hk : k ≠ .leafNode) : leafVals (.node k v m cs) = leafValsL cs := by
  rw [leafVals, if_neg hk, leafVals_go_eq]
  rfl

theorem noPartLeaf_internal {k : NodeKind} (v : Nat) (m : Mark) (cs : List PQN)
    (hk : k ≠ .leafNode) :
    noPartLeaf (.node k v m cs) = true ↔ ∀ c ∈ cs, noPartLeaf c = true := by
  rw [noPartLeaf, Bool.and_eq_true, noPartLeaf_go_iff]
  constructor
  · exact fun h => h.2
  · intro h
    refine ⟨?_, h⟩
    rw [Bool.or_eq_true]
    left
    rw [Bool.not_eq_true', beq_eq_false_iff_ne]
    exact hk

theorem noPartLeaf_children {c : PQN} (h : noPartLeaf c = true) :
    ∀ gc ∈ c.children, noPartLeaf gc = true := by
  match c with
  | .node k v m cs =>
    rw [noPartLeaf, Bool.and_eq_true, noPartLeaf_go_iff] at h
    exact h.2

theorem kind_ne_leaf_of_part {c : PQN} (h : noPartLeaf c = true) (hm : c.mark = .part) :
    c.kind ≠ .leafNode := by
  match c with
  | .node k v m cs =>
    rw [noPartLeaf, Bool.and_eq_true] at h
    simp only [PQN.mark] at hm
    subst hm
    have h1 := h.1
    rw [Bool.or_eq_true] at h1
    rcases h1 with h1 | h1
    · rw [Bool.not_eq_true', beq_eq_false_iff_ne] at h1
      simpa [PQN.kind] using h1
    · exact absurd h1 (by simp)

theorem length_one_headD (l : List PQN) (d : PQN) (h : l.length = 1) : l = [l.headD d] := by
  match l with
  | [x] => rfl

theorem leafVals_of_ne_leaf {c : PQN} (h : c.kind ≠ .leafNode) :
    leafVals c = leafValsL c.children := by
  match c with
  | .node k v m cs =>
    simp only [PQN.kind] at h
    exact leafVals_internal v m cs h

theorem forall₂_mem_left {R : PQN → PQN → Prop} {l₁ l₂ : List PQN}
    (h : List.Forall₂ R l₁ l₂) : ∀ a ∈ l₁, ∃ b ∈ l₂, R a b := by
  induction h with
  | nil =>
    intro a ha
    exact absurd ha (List.not_mem_nil a)
  | cons hab htail ih =>
    intro a ha
    rcases List.mem_cons.1 ha with rfl | ha'
    · exact ⟨_, List.mem_cons_self _ _, hab⟩
    · obtain ⟨b, hb, hr⟩ := ih a ha'
      exact ⟨b, List.mem_cons_of_mem _ hb, hr⟩

theorem leafValsL_of_forall₂ {l₁ l₂ : List PQN}
    (h : List.Forall₂ (fun a b => (leafVals a).Perm (leafVals b)) l₁ l₂) :
    (leafValsL l₁).Perm (leafValsL l₂) := by
  refine flatten_perm_of_forall₂ ?_
  rw [List.forall₂_map_left_iff, List.forall₂_map_right_iff]
  exact h

theorem mergeQNodes_mem {cs : List PQN} {idx : Nat} :
    ∀ x ∈ mergeQNodes cs idx, x ∈ cs ∨ ∃ c ∈ cs, x ∈ c.children := by
  intro x hx
  match hidx : cs.get? idx with
  | none =>
    have heq : mergeQNodes cs idx = cs := by
      unfold mergeQNodes
      rw [hidx]
    rw [heq] at hx
    exact Or.inl hx
  | some child =>
    have hchildmem : child ∈ cs := List.get?_mem hidx
    by_cases hkind : child.kind ≠ .qNode
    · have heq : mergeQNodes cs idx = cs := by
        unfold mergeQNodes
        rw [hidx]
        simp [hkind]
      rw [heq] at hx
      exact Or.inl hx
    · have heq : mergeQNodes cs idx = (cs.take idx ++
          (if mergeRev cs idx child then child.children.reverse else child.children)) ++
          cs.drop (idx + 1) := by
        unfold mergeQNodes
        rw [hidx]
        simp [hkind]
      rw [heq] at hx
      rcases List.mem_append.1 hx with hx1 | hx2
      · rcases List.mem_append.1 hx1 with hx3 | hx4
        · exact Or.inl (List.mem_of_mem_take hx3)
        · refine Or.inr ⟨child, hchildmem, ?_⟩
          by_cases hrev : mergeRev cs idx child
          · rw [if_pos hrev] at hx4
            exact List.mem_reverse.1 hx4
          · rw [if_neg hrev] at hx4
            exact hx4
      · exact Or.inl (List.mem_of_mem_drop hx2)

/-- The merge loop of reduceQNode: splicing child Q-nodes into the parent
preserves the leaf multiset and the no-partial-leaf invariant. -/
theorem foldl_merge_preserve (idxs : List Nat) : ∀ (cs : List PQN),
    (∀ x ∈ cs, noPartLeaf x = true) →
    ((leafValsL (idxs.foldl
        (fun cur idx =>
          match cur.get? idx with
          | some c => if c.kind == .qNode then mergeQNodes cur idx else cur
          | none => cur) cs)).Perm (leafValsL cs) ∧
      ∀ x ∈ idxs.foldl
        (fun cur idx =>
          match cur.get? idx with
          | some c => if c.kind == .qNode then mergeQNodes cur idx else cur
          | none => cur) cs, noPartLeaf x = true) := by
  induction idxs with
  | nil =>
    intro cs hnp
    exact ⟨List.Perm.refl _, hnp⟩
  | cons i rest ih =>
    intro cs hnp
    have hstep_perm : (leafValsL (match cs.get? i with
        | some c => if c.kind == .qNode then mergeQNodes cs i else cs
        | none => cs)).Perm (leafValsL cs) := by
      match hi : cs.get? i with
      | Option.none => exact List.Perm.refl _
      | Option.some c =>
        show (leafValsL (if (c.kind == NodeKind.qNode) = true then
          mergeQNodes cs i else cs)).Perm (leafValsL cs)
        by_cases hk : (c.kind == NodeKind.qNode) = true
        · rw [if_pos hk]
          exact mergeQNodes_leafVals cs i
        · rw [if_neg hk]
    have hstep_np : ∀ x ∈ ((match cs.get? i with
        | some c => if c.kind == .qNode then mergeQNodes cs i else cs
        | none => cs : List PQN)), noPartLeaf x = true := by
      intro x hx
      match hi : cs.get? i with
      | none =>
        rw [hi] at hx
        exact hnp x hx
      | some c =>
        rw [hi] at hx
        have hx' : x ∈ (if (c.kind == NodeKind.qNode) = true then
            mergeQNodes cs i else cs) := hx
        by_cases hk : (c.kind == NodeKind.qNode) = true
        · rw [if_pos hk] at hx'
          rcases mergeQNodes_mem x hx' with h | ⟨c₂, hc₂, hxc⟩
          · exact hnp x h
          · exact noPartLeaf_children (hnp c₂ hc₂) x hxc
        · rw [if_neg hk] at hx'
          exact hnp x hx'
    rw [List.foldl_cons]
    obtain ⟨hp, hn⟩ := ih _ hstep_np
    exact ⟨hp.trans hstep_perm, hn⟩

/-- reducePartialChildren rewrites each partial child in place (stopping
at a failure): the result is pointwise leaf-equivalent to the input and
keeps the no-partial-leaf invariant. -/
theorem reduceChildren_preserve (cs : List PQN)
    (ih : ∀ c ∈ cs, noPartLeaf c = true → ∀ isRoot,
      ((leafVals (reduceN isRoot c).2).Perm (leafVals c) ∧
        noPartLeaf (reduceN isRoot c).2 = true))
    (hcs : ∀ c ∈ cs, noPartLeaf c = true) :
    List.Forall₂ (fun a b => (leafVals a).Perm (leafVals b) ∧ noPartLeaf a = true)
      (reduceN.reduceChildren cs).2 cs := by
  induction cs with
  | nil => exact List.Forall₂.nil
  | cons c rest ihl =>
    have hc := hcs c (List.mem_cons_self c rest)
    have ihrest := ihl (fun x hx => ih x (List.mem_cons_of_mem c hx))
      (fun x hx => hcs x (List.mem_cons_of_mem c hx))
    have hrestid : List.Forall₂
        (fun a b => (leafVals a).Perm (leafVals b) ∧ noPartLeaf a = true) rest rest :=
      List.forall₂_same.2 (fun x hx => ⟨List.Perm.refl _, hcs x (List.mem_cons_of_mem c hx)⟩)
    rw [reduceN.reduceChildren]
    by_cases hm : (c.mark == Mark.part) = true
    · rw [if_pos hm]
      obtain ⟨hperm, hnpl⟩ := ih c (List.mem_cons_self c rest) hc false
      by_cases h1 : (reduceN false c).1 = true
      · have hcond : (!(reduceN false c).1) = false := by rw [h1]; rfl
        simp only [hcond, Bool.false_eq_true, if_neg (by simp : ¬(false = true))]
        exact List.Forall₂.cons ⟨hperm, hnpl⟩ ihrest
      · have hcond : (!(reduceN false c).1) = true := by
          rw [Bool.eq_false_iff.2 h1]
          rfl
        simp only [hcond, if_pos (rfl : true = true)]
        exact List.Forall₂.cons ⟨hperm, hnpl⟩ hrestid
    · rw [if_neg hm]
      exact List.Forall₂.cons ⟨List.Perm.refl _, hc⟩ ihrest

theorem preserveNodeAux {k : NodeKind} (v : Nat) (m : Mark) (cs cs₁ : List PQN)
    (hk : k ≠ .leafNode)
    (hperm₁ : (leafValsL cs₁).Perm (leafValsL cs))
    (hnp₁ : ∀ x ∈ cs₁, noPartLeaf x = true) :
    (leafVals (PQN.node k v m cs₁)).Perm (leafVals (PQN.node k v m cs)) ∧
      noPartLeaf (PQN.node k v m cs₁) = true := by
  constructor
  · rw [leafVals_internal v m cs₁ hk, leafVals_internal v m cs hk]
    exact hperm₁
  · exact (noPartLeaf_internal v m cs₁ hk).2 hnp₁

/-- The reduce pass never loses or duplicates leaves and never creates a
partial leaf: the subtree returned by reduce carries the same multiset
of leaf values as its input. -/
theorem reduceN_preserve : ∀ t : PQN, noPartLeaf t = true → ∀ isRoot : Bool,
    ((leafVals (reduceN isRoot t).2).Perm (leafVals t) ∧
      noPartLeaf (reduceN isRoot t).2 = true) := by
  apply PQN.inducOn
  intro k v m cs ih hnp isRoot
  by_cases hm : (m == Mark.full || m == Mark.empty) = true
  · have heq : reduceN isRoot (.node k v m cs) = (true, .node k v m cs) := by
      simp only [reduceN]
      rw [if_pos hm]
    rw [heq]
    exact ⟨List.Perm.refl _, hnp⟩
  · cases k with
    | leafNode =>
      have heq : reduceN isRoot (.node .leafNode v m cs) = (true, .node .leafNode v m cs) := by
        simp only [reduceN]
        rw [if_neg hm]
      rw [heq]
      exact ⟨List.Perm.refl _, hnp⟩
    | pNode =>
      have hknl : NodeKind.pNode ≠ NodeKind.leafNode := by decide
      have hnpc : ∀ c ∈ cs, noPartLeaf c = true := (noPartLeaf_internal v m cs hknl).1 hnp
      have hred := reduceChildren_preserve cs ih hnpc
      have hperm₁ : (leafValsL (reduceN.reduceChildren cs).2).Perm (leafValsL cs) :=
        leafValsL_of_forall₂ (hred.imp (fun a b h => h.1))
      have hnp₁ : ∀ x ∈ (reduceN.reduceChildren cs).2, noPartLeaf x = true := by
        intro x hx
        obtain ⟨b, _, hr⟩ := forall₂_mem_left hred x hx
        exact hr.2
      simp only [reduceN]
      rw [if_neg hm]
      cases h1 : (reduceN.reduceChildren cs).1 with
      | false =>
        rw [if_pos (show (!false) = true from rfl)]
        exact preserveNodeAux v m cs _ hknl hperm₁ hnp₁
      | true =>
        rw [if_neg (show ¬((!true) = true) by simp)]
        by_cases h2 : (List.filter (fun c => c.mark == Mark.part)
            (reduceN.reduceChildren cs).2).length > 1
        · rw [if_pos h2]
          exact preserveNodeAux v m cs _ hknl hperm₁ hnp₁
        · rw [if_neg h2]
          by_cases h3 : (List.filter (fun c => c.mark == Mark.full)
              (reduceN.reduceChildren cs).2).length = 0
          · rw [if_pos h3]
            exact preserveNodeAux v m cs _ hknl hperm₁ hnp₁
          · rw [if_neg h3]
            by_cases h4 : (List.filter (fun c => c.mark == Mark.part)
                (reduceN.reduceChildren cs).2).length = 0
            · rw [if_pos h4]
              by_cases h5 : (List.filter (fun c => c.mark == Mark.full)
                    (reduceN.reduceChildren cs).2).length > 1 ∧
                  (List.filter (fun c => c.mark == Mark.empty)
                    (reduceN.reduceChildren cs).2).length > 0
              · rw [if_pos h5]
                have hgc : groupChildren (reduceN.reduceChildren cs).2
                    (List.filter (fun c => c.mark == Mark.full)
                      (reduceN.reduceChildren cs).2) NodeKind.pNode =
                    replaceRun (fun c => c.mark == Mark.full)
                      (PQN.node NodeKind.pNode 0
                        ((List.filter (fun c => c.mark == Mark.full)
                          (reduceN.reduceChildren cs).2).headD dfltNode).mark
                        (List.filter (fun c => c.mark == Mark.full)
                          (reduceN.reduceChildren cs).2))
                      (reduceN.reduceChildren cs).2 := by
                  simp only [groupChildren]
                  rw [if_neg (show ¬((List.filter (fun c => c.mark == Mark.full)
                    (reduceN.reduceChildren cs).2).length ≤ 1) by omega)]
                have hgperm : (leafValsL (groupChildren (reduceN.reduceChildren cs).2
                    (List.filter (fun c => c.mark == Mark.full)
                      (reduceN.reduceChildren cs).2) NodeKind.pNode)).Perm (leafValsL cs) := by
                  rw [hgc]
                  refine (replaceRun_leafVals _ ?_).trans hperm₁
                  rw [leafVals_internal _ _ _ hknl]
                have hgnp : ∀ x ∈ groupChildren (reduceN.reduceChildren cs).2
                    (List.filter (fun c => c.mark == Mark.full)
                      (reduceN.reduceChildren cs).2) NodeKind.pNode,
                    noPartLeaf x = true := by
                  intro x hx
                  rw [hgc] at hx
                  rcases replaceRun_mem x hx with rfl | hmem
                  · refine (noPartLeaf_internal _ _ _ hknl).2 ?_
                    intro c hc
                    exact hnp₁ c (List.mem_of_mem_filter hc)
                  · exact hnp₁ x hmem
                exact preserveNodeAux v m cs _ hknl hgperm hgnp
              · rw [if_neg h5]
                exact preserveNodeAux v m cs _ hknl hperm₁ hnp₁
            · rw [if_neg h4]
              have hP1 : (List.filter (fun c => c.mark == Mark.part)
                  (reduceN.reduceChildren cs).2).length = 1 := by omega
              set pc := (List.filter (fun c => c.mark == Mark.part)
                (reduceN.reduceChildren cs).2).headD dfltNode with hpcdef
              have hPeq : List.filter (fun c => c.mark == Mark.part)
                  (reduceN.reduceChildren cs).2 = [pc] :=
                length_one_headD _ dfltNode hP1
              have hpcP : pc ∈ List.filter (fun c => c.mark == Mark.part)
                  (reduceN.reduceChildren cs).2 := by
                rw [hPeq]
                exact List.mem_singleton_self pc
              have hpcmem : pc ∈ (reduceN.reduceChildren cs).2 :=
                List.mem_of_mem_filter hpcP
              have hpcmark : pc.mark = Mark.part :=
                eq_of_beq (List.mem_filter.1 hpcP).2
              have hpcnp : noPartLeaf pc = true := hnp₁ pc hpcmem
              have hpcknl : pc.kind ≠ NodeKind.leafNode :=
                kind_ne_leaf_of_part hpcnp hpcmark
              have hE : (List.filter (fun c => c.mark == Mark.full)
                  (reduceN.reduceChildren cs).2).isEmpty = false := by
                cases hF : List.filter (fun c => c.mark == Mark.full)
                    (reduceN.reduceChildren cs).2 with
                | nil => exact absurd (by rw [hF]; rfl) h3
                | cons a as => rfl
              simp only [extendPartChild]
              rw [if_neg (show ¬((List.filter (fun c => c.mark == Mark.full)
                (reduceN.reduceChildren cs).2).isEmpty = true) by simp [hE])]
              set qn := PQN.node NodeKind.qNode 0 Mark.part
                (List.filter (fun c => !(c.mark == Mark.full)) pc.children ++
                  List.filter (fun c => c.mark == Mark.full) pc.children ++
                  List.filter (fun c => c.mark == Mark.full)
                    (reduceN.reduceChildren cs).2) with hqndef
              set nc := replaceRun (fun c => c.mark == Mark.part || c.mark == Mark.full) qn
                (reduceN.reduceChildren cs).2 with hncdef
              have hqnperm : (leafVals qn).Perm (leafValsL
                  (List.filter (fun c => c.mark == Mark.part || c.mark == Mark.full)
                    (reduceN.reduceChildren cs).2)) := by
                rw [hqndef, leafVals_internal _ _ _ (show NodeKind.qNode ≠ NodeKind.leafNode
                  by decide)]
                rw [leafValsL_append, leafValsL_append]
                have hsplit : (leafValsL (List.filter (fun c => c.mark == Mark.full)
                      pc.children) ++
                    leafValsL (List.filter (fun c => !(c.mark == Mark.full))
                      pc.children)).Perm (leafValsL pc.children) :=
                  leafValsL_filter_perm (fun c => c.mark == Mark.full) pc.children
                have hpcleaf : leafVals pc = leafValsL pc.children :=
                  leafVals_of_ne_leaf hpcknl
                have hor : (leafValsL (List.filter
                    (fun c => c.mark == Mark.part || c.mark == Mark.full)
                    (reduceN.reduceChildren cs).2)).Perm
                    (leafValsL (List.filter (fun c => c.mark == Mark.part)
                      (reduceN.reduceChildren cs).2) ++
                     leafValsL (List.filter (fun c => c.mark == Mark.full)
                      (reduceN.reduceChildren cs).2)) := by
                  refine (leafValsL_perm (filter_or_perm _ _ _ ?_)).trans ?_
                  · intro c hc ⟨ha, hb⟩
                    have h₁ := eq_of_beq ha
                    have h₂ := eq_of_beq hb
                    rw [h₁] at h₂
                    exact Mark.noConfusion h₂
                  · rw [leafValsL_append]
                refine List.Perm.trans ?_ hor.symm
                rw [hPeq]
                have hPone : leafValsL [pc] = leafVals pc := by simp [leafValsL]
                rw [hPone, hpcleaf]
                refine List.Perm.append_right _ ?_
                exact (List.perm_append_comm).trans hsplit
              have hncperm : (leafValsL nc).Perm
                  (leafValsL (reduceN.reduceChildren cs).2) := by
                rw [hncdef]
                exact replaceRun_leafVals _ hqnperm
              have hncnp : ∀ x ∈ nc, noPartLeaf x = true := by
                intro x hx
                rw [hncdef] at hx
                rcases replaceRun_mem x hx with rfl | hmem
                · rw [hqndef]
                  refine (noPartLeaf_internal _ _ _ (show NodeKind.qNode ≠ NodeKind.leafNode
                    by decide)).2 ?_
                  intro c hc
                  rcases List.mem_append.1 hc with hc1 | hc2
                  · rcases List.mem_append.1 hc1 with hc3 | hc4
                    · exact noPartLeaf_children hpcnp c (List.mem_of_mem_filter hc3)
                    · exact noPartLeaf_children hpcnp c (List.mem_of_mem_filter hc4)
                  · exact hnp₁ c (List.mem_of_mem_filter hc2)
                · exact hnp₁ x hmem
              by_cases h6 : nc.length = 1 ∧ isRoot = true
              · rw [if_pos h6]
                obtain ⟨x, hx⟩ : ∃ x, nc = [x] := ⟨nc.headD qn, length_one_headD nc qn h6.1⟩
                have hres : (true, nc.headD qn).2 = x := by rw [hx]; rfl
                have hxnc : x ∈ nc := by
                  rw [hx]
                  exact List.mem_singleton_self x
                have hxperm : (leafVals x).Perm (leafValsL (reduceN.reduceChildren cs).2) := by
                  have hone : leafValsL nc = leafVals x := by rw [hx]; simp [leafValsL]
                  rw [← hone]
                  exact hncperm
                rw [hres]
                constructor
                · rw [leafVals_internal v m cs hknl]
                  exact hxperm.trans hperm₁
                · exact hncnp x hxnc
              · rw [if_neg h6]
                exact preserveNodeAux v m cs _ hknl (hncperm.trans hperm₁) hncnp
    | qNode =>
      have hknl : NodeKind.qNode ≠ NodeKind.leafNode := by decide
      have hnpc : ∀ c ∈ cs, noPartLeaf c = true := (noPartLeaf_internal v m cs hknl).1 hnp
      have hred := reduceChildren_preserve cs ih hnpc
      have hperm₁ : (leafValsL (reduceN.reduceChildren cs).2).Perm (leafValsL cs) :=
        leafValsL_of_forall₂ (hred.imp (fun a b h => h.1))
      have hnp₁ : ∀ x ∈ (reduceN.reduceChildren cs).2, noPartLeaf x = true := by
        intro x hx
        obtain ⟨b, _, hr⟩ := forall₂_mem_left hred x hx
        exact hr.2
      simp only [reduceN]
      rw [if_neg hm]
      cases h1 : (reduceN.reduceChildren cs).1 with
      | false =>
        rw [if_pos (show (!false) = true from rfl)]
        exact preserveNodeAux v m cs _ hknl hperm₁ hnp₁
      | true =>
        rw [if_neg (show ¬((!true) = true) by simp)]
        cases hs : (scanQ (reduceN.reduceChildren cs).2).1 with
        | none =>
          exact preserveNodeAux v m cs _ hknl hperm₁ hnp₁
        | some fi =>
          simp only []
          by_cases hc1 : ((List.range (((scanQ (reduceN.reduceChildren cs).2).2.1).getD fi +
                1 - fi)).any (fun j =>
              markAt (reduceN.reduceChildren cs).2 (fi + j) == Mark.empty)) = true
          · rw [if_pos hc1]
            exact preserveNodeAux v m cs _ hknl hperm₁ hnp₁
          · rw [if_neg hc1]
            by_cases hc2 : (((scanQ (reduceN.reduceChildren cs).2).2.2).any (fun idx =>
                !((idx : Int) = (fi : Int) - 1 ||
                  (idx : Int) = (((scanQ (reduceN.reduceChildren cs).2).2.1).getD fi : Int)
                    + 1))) = true
            · rw [if_pos hc2]
              exact preserveNodeAux v m cs _ hknl hperm₁ hnp₁
            · rw [if_neg hc2]
              obtain ⟨hfp, hfn⟩ :=
                foldl_merge_preserve ((scanQ (reduceN.reduceChildren cs).2).2.2)
                  (reduceN.reduceChildren cs).2 hnp₁
              exact preserveNodeAux v m cs _ hknl (hfp.trans hperm₁) hfn

theorem flatten_map_singleton (l : List Nat) : (l.map (fun i => [i])).flatten = l := by
  induction l with
  | nil => rfl
  | cons a as ih => simp [ih]

/-- The tree built by Construct(n) carries the leaves 0..n-1 (n ≥ 1). -/
theorem NewPQTree_rootPerm (n : Nat) (hn : 1 ≤ n) :
    ∃ r, (NewPQTree n).root = some r ∧ (leafVals r).Perm (List.range n) := by
  rw [NewPQTree]
  by_cases h0 : n = 0
  · omega
  · rw [if_neg h0]
    by_cases h1 : n = 1
    · rw [if_pos h1]
      refine ⟨_, rfl, ?_⟩
      rw [leafVals, if_pos rfl, h1]
      rfl
    · rw [if_neg h1]
      refine ⟨_, rfl, ?_⟩
      rw [leafVals_internal _ _ _ (show NodeKind.pNode ≠ NodeKind.leafNode by decide)]
      rw [leafValsL, List.map_map]
      have hmap : List.map (leafVals ∘ fun i => PQN.node NodeKind.leafNode i Mark.unmarked [])
          (List.range n) = List.map (fun i => [i]) (List.range n) :=
        List.map_congr_left (fun i _ => rfl)
      rw [hmap, flatten_map_singleton]

/-- A Reduce call keeps the leaf count field and rewrites the root into a
tree over the same multiset of leaves. -/
theorem Reduce_preserve (t : PQTree) (constraint : List Int) (r : PQN)
    (hroot : t.root = some r) :
    (Reduce t constraint).2.nLeaves = t.nLeaves ∧
    ∃ r', (Reduce t constraint).2.root = some r' ∧ (leafVals r').Perm (leafVals r) := by
  simp only [Reduce, hroot]
  by_cases htriv : constraint.length ≤ 1 ∨ constraint.length = t.nLeaves
  · rw [if_pos htriv]
    exact ⟨rfl, r, hroot, List.Perm.refl (leafVals r)⟩
  · rw [if_neg htriv]
    by_cases hb : (bubbleUp (markLeaves constraint t.nLeaves (clearMarks r))).1 = Mark.empty
    · rw [if_pos hb]
      refine ⟨rfl, _, rfl, ?_⟩
      rw [leafVals_bubbleUp, leafVals_markLeaves, leafVals_clearMarks]
    · rw [if_neg hb]
      refine ⟨rfl, _, rfl, ?_⟩
      have hnp : noPartLeaf (bubbleUp (markLeaves constraint t.nLeaves (clearMarks r))).2
          = true :=
        noPartLeaf_bubbleUp _ (noPartLeaf_markLeaves _ _ _ (noPartLeaf_clearMarks r))
      have hpr := (reduceN_preserve _ hnp true).1
      rw [leafVals_bubbleUp, leafVals_markLeaves, leafVals_clearMarks] at hpr
      exact hpr

/-- Every ordering yielded by Enumerate on a tree whose root carries a
permutation of 0..n-1 is itself a permutation of 0..n-1. -/
theorem Enumerate_mem_perm (t : PQTree) (limit : Int) (n : Nat) (r : PQN)
    (hroot : t.root = some r) (hr : (leafVals r).Perm (List.range n)) :
    ∀ p ∈ Enumerate t limit, p.Perm (List.range n) := by
  intro p hp
  simp only [Enumerate, hroot] at hp
  by_cases hl : limit ≤ 0
  · rw [if_pos hl] at hp
    exact (enumNode_perm r p hp).trans hr
  · rw [if_neg hl] at hp
    exact (enumNode_perm r p (List.mem_of_mem_take hp)).trans hr

/-- C1.  The claim fails on the code: on the 4-leaf tree the reductions
by {0,1}, {1,2} and {1,3} all return true, yet Enumerate then yields the
ordering 0,2,1,3 in which the reduced subset {0,1} is not contiguous
(the three constraints are jointly unsatisfiable, so the third Reduce
should have returned false).  The slip is in extendPartialChild, which
flattens a partial child into empties-then-fulls and thereby discards
the child's own Q-node ordering constraint. -/
theorem reduce_breaks_earlier_constraint :
    (Reduce (NewPQTree 4) [0, 1]).1 = true ∧
    (Reduce pq4a [1, 2]).1 = true ∧
    (Reduce pq4b [1, 3]).1 = true ∧
    ([0, 2, 1, 3] : List Nat) ∈ Enumerate pq4c 0 ∧
    isContiguous [0, 1] [0, 2, 1, 3] = false := by
  refine ⟨rfl, rfl, rfl, ?_, rfl⟩
  have h : Enumerate pq4c 0 = [[0, 2, 1, 3], [3, 1, 2, 0]] := rfl
  rw [h]
  exact List.mem_cons_self _ _

/-- C6.  The claim fails on the code: on the 5-leaf tree, after the
successful reductions by {0,1}, {1,2} and {0,1,2,3}, a reduction by
{2,4} returns true but the immediately repeated identical reduction
returns false, so Reduce; Reduce differs from a single Reduce.  (The
first call produced a tree that does not actually keep {2,4}
contiguous, and the second call detects the misplaced partial child.) -/
theorem reduce_not_idempotent :
    (Reduce (NewPQTree 5) [0, 1]).1 = true ∧
    (Reduce pq5a [1, 2]).1 = true ∧
    (Reduce pq5b [0, 1, 2, 3]).1 = true ∧
    (Reduce pq5c [2, 4]).1 = true ∧
    (Reduce pq5d [2, 4]).1 = false :=
  ⟨rfl, rfl, rfl, rfl, rfl⟩

/-- C4 counterexample.  ValidCount is computed in 64-bit Go int
arithmetic, so for n = 21 the product wraps and the result is not 21
factorial (it is negative). -/
theorem validCount_wraps_at_21 :
    ValidCount (NewPQTree 21) ≠ ((Nat.factorial 21 : Nat) : Int) := by
  decide

/-- C4, amended to the range where 64-bit arithmetic does not overflow:
for every n at most 20, immediately after Construct(n) the tree's
ValidCount equals n factorial when n is at least 2, and equals 1 when n
is at most 1. -/
theorem validCount_after_construct :
    ∀ n : Nat, n ≤ 20 →
      ValidCount (NewPQTree n) =
        if n ≤ 1 then 1 else ((Nat.factorial n : Nat) : Int) := by
  decide

/-- Witness for validCount_after_construct at n = 5. -/
theorem validCount_after_construct_witness :
    (5 : Nat) ≤ 20 ∧
      ValidCount (NewPQTree 5) =
        if (5 : Nat) ≤ 1 then 1 else ((Nat.factorial 5 : Nat) : Int) :=
  ⟨by decide, validCount_after_construct 5 (by decide)⟩

/-- C5.  A reduction by a trivial subset (size at most 1 or size equal
to the number of leaves) returns true, leaves the tree — marks
included — unchanged, and in particular does not change ValidCount. -/
theorem reduce_trivial_noop (t : PQTree) (S : List Int)
    (hS : S.Nodup)
    (h : S.length ≤ 1 ∨ S.length = t.nLeaves) :
    Reduce t S = (true, t) ∧ ValidCount (Reduce t S).2 = ValidCount t := by
  have hr : Reduce t S = (true, t) := by
    unfold Reduce
    match ht : t.root with
    | none => rfl
    | some r => simp [h]
  exact ⟨hr, by rw [hr]⟩

theorem wfShape_go_eq (cs : List PQN) :
    wfShape.go cs = true ↔ ∀ c ∈ cs, wfShape c = true := by
  induction cs with
  | nil => simp [wfShape.go]
  | cons c rest ih => simp [wfShape.go, ih]

/-- If every element of the constraint is out of range, the marking loop
of Reduce marks nothing. -/
theorem markLeaves_out_of_range (S : List Int) (n : Nat)
    (h : ∀ x ∈ S, x < 0 ∨ (n : Int) ≤ x) :
    ∀ t : PQN, markLeaves S n t = t := by
  apply PQN.inducOn
  intro k v m cs ih
  rw [markLeaves]
  have hcond : ¬(k = .leafNode ∧ 0 ≤ (v : Int) ∧ (v : Int) < (n : Int) ∧ (v : Int) ∈ S) := by
    rintro ⟨-, h0, hn, hv⟩
    rcases h (v : Int) hv with hlt | hge
    · omega
    · omega
  rw [if_neg hcond, markLeaves_go_eq]
  refine congrArg (PQN.node k v m) ?_
  have h2 : cs.map (markLeaves S n) = cs.map id := List.map_congr_left (fun c hc => ih c hc)
  simpa using h2

theorem countPerms_go_congr {cs cs' : List PQN}
    (hlen : cs'.length = cs.length)
    (h : List.Forall₂ (fun a b => countPerms a = countPerms b) cs' cs) :
    ∀ acc, countPerms.go cs' acc = countPerms.go cs acc := by
  induction h with
  | nil => intro acc; rfl
  | cons hab _ ih =>
    intro acc
    simp only [countPerms.go]
    rw [hab]
    exact ih (by simpa using hlen) _

/-- countPerms does not look at the marks. -/
theorem countPerms_clearMarks : ∀ t : PQN, countPerms (clearMarks t) = countPerms t := by
  apply PQN.inducOn
  intro k v m cs ih
  rw [clearMarks, countPerms, countPerms, clearMarks_go_eq]
  by_cases hk : k = .leafNode
  · simp [hk]
  · rw [if_neg hk, if_neg hk]
    have hgo : countPerms.go (cs.map clearMarks) 1 = countPerms.go cs 1 := by
      apply countPerms_go_congr (by simp)
      rw [List.forall₂_map_left_iff]
      exact List.forall₂_same.2 ih
    rw [hgo, List.length_map]

/-- Enumeration does not look at the marks. -/
theorem enumNode_clearMarks : ∀ t : PQN, enumNode (clearMarks t) = enumNode t := by
  apply PQN.inducOn
  intro k v m cs ih
  rw [clearMarks, enumNode, enumNode, clearMarks_go_eq, enumNode_go_eq, enumNode_go_eq]
  have hmap : (cs.map clearMarks).map enumNode = cs.map enumNode := by
    rw [List.map_map]
    exact List.map_congr_left (fun c hc => ih c hc)
  rw [hmap, List.length_map]

/-- bubbleUp on a tree with cleared marks and a well-formed shape marks
everything empty:  the mark result is empty and the tree is unchanged up
to marks. -/
theorem bubbleUp_clearMarks :
    ∀ t : PQN, wfShape t = true →
      (bubbleUp (clearMarks t)).1 = .empty ∧
        clearMarks (bubbleUp (clearMarks t)).2 = clearMarks t := by
  apply PQN.inducOn
  intro k v m cs ih hwf
  simp only [wfShape, Bool.and_eq_true, wfShape_go_eq] at hwf
  obtain ⟨hkind, hchildren⟩ := hwf
  by_cases hk : k = .leafNode
  · subst hk
    simp only at hkind
    have hcs : cs = [] := List.length_eq_zero.1 (by
      simpa using hkind)
    subst hcs
    constructor <;> rfl
  · have ihall : ∀ c ∈ cs, (bubbleUp (clearMarks c)).1 = .empty ∧
        clearMarks (bubbleUp (clearMarks c)).2 = clearMarks c :=
      fun c hc => ih c hc (hchildren c hc)
    have hgo : ∀ cs' : List PQN,
        (∀ c ∈ cs', (bubbleUp (clearMarks c)).1 = .empty ∧
          clearMarks (bubbleUp (clearMarks c)).2 = clearMarks c) →
        bubbleUp.go (cs'.map clearMarks) =
          (0, 0, (cs'.map clearMarks).map (fun c => (bubbleUp c).2)) ∧
        ((cs'.map clearMarks).map (fun c => (bubbleUp c).2)).map clearMarks =
          cs'.map clearMarks := by
      intro cs' hcs'
      induction cs' with
      | nil => exact ⟨rfl, rfl⟩
      | cons c rest ihrest =>
        have hc := hcs' c (by simp)
        have hrest := ihrest (fun x hx => hcs' x (by simp [hx]))
        constructor
        · simp only [List.map_cons, bubbleUp.go, hrest.1]
          rw [hc.1]
        · simp only [List.map_cons, List.map_map] at hrest ⊢
          refine List.cons_eq_cons.2 ⟨hc.2, ?_⟩
          simpa using hrest.2
    have hgo' := hgo cs ihall
    have hlen : ¬((0 : Nat) = cs.length) := by
      cases k with
      | leafNode => exact absurd rfl hk
      | pNode => simp only [decide_eq_true_eq] at hkind; omega
      | qNode => simp only [decide_eq_true_eq] at hkind; omega
    constructor
    · rw [clearMarks, bubbleUp, clearMarks_go_eq]
      rw [if_neg hk]
      simp only [hgo'.1]
      simp only [List.length_map]
      rw [if_neg hlen]
      simp
    · rw [clearMarks, bubbleUp, clearMarks_go_eq]
      rw [if_neg hk]
      simp only [hgo'.1]
      rw [clearMarks, clearMarks_go_eq]
      refine congrArg (PQN.node k v .unmarked) ?_
      exact hgo'.2

/-- C10.  A constraint whose elements all lie outside 0..n-1 is ignored:
Reduce returns true and the tree is unchanged up to the scratch marks —
in particular ValidCount and every Enumerate are unchanged.  The shape
hypothesis is the at-rest invariant of the spec (section 3). -/
theorem reduce_ignores_out_of_range (t : PQTree) (S : List Int)
    (hwf : ∀ r, t.root = some r → wfShape r = true)
    (h : ∀ x ∈ S, x < 0 ∨ (t.nLeaves : Int) ≤ x) :
    (Reduce t S).1 = true ∧
      treeShape (Reduce t S).2 = treeShape t ∧
      (Reduce t S).2.nLeaves = t.nLeaves ∧
      ValidCount (Reduce t S).2 = ValidCount t ∧
      ∀ limit, Enumerate (Reduce t S).2 limit = Enumerate t limit := by
  match ht : t.root with
  | none =>
    have hr : Reduce t S = (true, t) := by
      unfold Reduce
      rw [ht]
    rw [hr]
    exact ⟨rfl, rfl, rfl, rfl, fun _ => rfl⟩
  | some r =>
    have hwfr := hwf r ht
    by_cases hguard : S.length ≤ 1 ∨ S.length = t.nLeaves
    · have hr : Reduce t S = (true, t) := by
        unfold Reduce
        rw [ht]
        simp [hguard]
      rw [hr]
      exact ⟨rfl, rfl, rfl, rfl, fun _ => rfl⟩
    · have hmark : markLeaves S t.nLeaves (clearMarks r) = clearMarks r :=
        markLeaves_out_of_range S t.nLeaves h (clearMarks r)
      have hb := bubbleUp_clearMarks r hwfr
      have hr : Reduce t S = (true, ⟨some (bubbleUp (clearMarks r)).2, t.nLeaves⟩) := by
        unfold Reduce
        rw [ht]
        simp [hguard, hmark, hb.1]
      rw [hr]
      refine ⟨rfl, ?_, rfl, ?_, ?_⟩
      · simp only [treeShape, ht, Option.map_some]
        exact congrArg some hb.2
      · show countPerms (bubbleUp (clearMarks r)).2 = ValidCount t
        have h1 : countPerms (bubbleUp (clearMarks r)).2 =
            countPerms (clearMarks (bubbleUp (clearMarks r)).2) :=
          (countPerms_clearMarks _).symm
        rw [h1, hb.2, countPerms_clearMarks]
        show countPerms r = ValidCount t
        unfold ValidCount
        rw [ht]
      · intro limit
        show Enumerate ⟨some (bubbleUp (clearMarks r)).2, t.nLeaves⟩ limit = Enumerate t limit
        have h1 : enumNode (bubbleUp (clearMarks r)).2 = enumNode r := by
          have h2 : enumNode (bubbleUp (clearMarks r)).2 =
              enumNode (clearMarks (bubbleUp (clearMarks r)).2) :=
            (enumNode_clearMarks _).symm
          rw [h2, hb.2, enumNode_clearMarks]
        unfold Enumerate
        rw [ht]
        simp only [h1]

/-- Witness for reduce_ignores_out_of_range: the three-leaf tree and the
constraint [5, 7] lying entirely outside 0..2. -/
theorem reduce_ignores_out_of_range_witness :
    (∀ r, (NewPQTree 3).root = some r → wfShape r = true) ∧
      (∀ x ∈ ([5, 7] : List Int), x < 0 ∨ ((NewPQTree 3).nLeaves : Int) ≤ x) ∧
      ((Reduce (NewPQTree 3) [5, 7]).1 = true ∧
        treeShape (Reduce (NewPQTree 3) [5, 7]).2 = treeShape (NewPQTree 3) ∧
        (Reduce (NewPQTree 3) [5, 7]).2.nLeaves = (NewPQTree 3).nLeaves ∧
        ValidCount (Reduce (NewPQTree 3) [5, 7]).2 = ValidCount (NewPQTree 3) ∧
        ∀ limit, Enumerate (Reduce (NewPQTree 3) [5, 7]).2 limit =
          Enumerate (NewPQTree 3) limit) :=
  ⟨by decide, by decide,
    reduce_ignores_out_of_range (NewPQTree 3) [5, 7] (by decide) (by decide)⟩

/-- Witness for reduce_trivial_noop: the three-leaf tree and the
singleton subset {0}. -/
theorem reduce_trivial_noop_witness :
    ([0] : List Int).Nodup ∧
      (([0] : List Int).length ≤ 1 ∨ ([0] : List Int).length = (NewPQTree 3).nLeaves) ∧
      (Reduce (NewPQTree 3) [0] = (true, NewPQTree 3) ∧
        ValidCount (Reduce (NewPQTree 3) [0]).2 = ValidCount (NewPQTree 3)) :=
  ⟨by decide, Or.inl (by decide),
    reduce_trivial_noop (NewPQTree 3) [0] (by decide) (Or.inl (by decide))⟩

end Perm

namespace Dag

theorem posMapGo_eq_none_of_not_mem (l : List String) (i : Nat) (x : String)
    (hx : x ∉ l) : posMapGo l i x = none := by
  induction l generalizing i with
  | nil => rfl
  | cons a rest ih =>
    rw [posMapGo, ih (i + 1) (fun h => hx (List.mem_cons_of_mem a h))]
    rw [if_neg (fun h => hx (by rw [h]; exact List.mem_cons_self a rest))]

theorem posMapGo_getElem (l : List String) (hnd : l.Nodup) (i k : Nat)
    (hk : k < l.length) : posMapGo l i l[k] = some (i + k) := by
  induction l generalizing i k with
  | nil => exact absurd hk (by simp)
  | cons a rest ih =>
    match k with
    | 0 =>
      rw [posMapGo]
      rw [posMapGo_eq_none_of_not_mem rest (i + 1) _ (by
        have := (List.nodup_cons.1 hnd).1
        simpa using this)]
      simp
    | k + 1 =>
      rw [posMapGo]
      have hk' : k < rest.length := by simpa using hk
      have hget : (a :: rest)[k + 1] = rest[k] := by simp
      rw [hget, ih (List.nodup_cons.1 hnd).2 (i + 1) k hk']
      simp [Nat.add_assoc, Nat.add_comm 1 k]

theorem idxMap_of_get? (nodes : List GNode) (hnd : (nodes.map GNode.ID).Nodup)
    (k : Nat) (x : String) (hx : (nodes.map GNode.ID).get? k = some x) :
    idxMap nodes x = some k := by
  have hk : k < (nodes.map GNode.ID).length := by
    by_contra hcon
    rw [List.get?_eq_none.2 (by omega)] at hx
    exact Option.noConfusion hx
  have hxe : (nodes.map GNode.ID)[k] = x := by
    rw [List.get?_eq_getElem?, List.getElem?_eq_getElem hk] at hx
    exact Option.some.inj hx
  rw [idxMap, posMap, nodeIDs, ← hxe]
  have := posMapGo_getElem (nodes.map GNode.ID) hnd 0 k hk
  simpa using this

theorem range_map_getD_ID (nodes : List GNode) :
    (List.range nodes.length).map (fun j => (nodes.getD j default).ID) =
      nodes.map GNode.ID := by
  apply List.ext_getElem
  · simp
  · intro i h1 h2
    simp only [List.getElem_map, List.getElem_range]
    rw [List.getD_eq_getElem nodes default (by simpa using h1)]

theorem stringify_perm (nodes : List GNode) (idx : List Nat)
    (hperm : idx.Perm (List.range nodes.length)) :
    (idx.map (fun j => (nodes.getD j default).ID)).Perm (nodes.map GNode.ID) := by
  refine (hperm.map _).trans ?_
  rw [range_map_getD_ID]

theorem toIndexRow_nil (order : List String) : toIndexRow [] order = [] := rfl

/-- With distinct IDs, translating an index ordering to IDs and back is
the identity. -/
theorem toIndexRow_roundtrip (nodes : List GNode) (hnd : (nodes.map GNode.ID).Nodup)
    (idx : List Nat) (hperm : idx.Perm (List.range nodes.length)) :
    toIndexRow nodes (idx.map (fun j => (nodes.getD j default).ID)) = idx := by
  have hlen : idx.length = nodes.length := by
    have := hperm.length_eq
    simpa using this
  rw [toIndexRow]
  apply List.ext_getElem
  · simp [hlen]
  · intro i h1 h2
    simp only [List.getElem_map, List.getElem_range]
    have hi : i < idx.length := by
      simpa using h2
    have hget : (idx.map (fun j => (nodes.getD j default).ID)).get? i =
        some ((nodes.getD idx[i] default).ID) := by
      rw [List.get?_eq_getElem?, List.getElem?_eq_getElem (by simpa using hi)]
      simp
    rw [hget]
    have hmem : idx[i] ∈ List.range nodes.length := hperm.mem_iff.1 (idx.getElem_mem hi)
    have hlt : idx[i] < nodes.length := by simpa using hmem
    show (idxMap nodes ((nodes.getD idx[i] default).ID)).getD 0 = idx[i]
    have hx : (nodes.map GNode.ID).get? idx[i] = some ((nodes.getD idx[i] default).ID) := by
      rw [List.get?_eq_getElem?, List.getElem?_eq_getElem (by simpa using hlt)]
      rw [List.getD_eq_getElem nodes default hlt]
      simp
    rw [idxMap_of_get? nodes hnd idx[i] _ hx]
    rfl

/-- When the ordering has full length, the translation is a map over the
ordering itself. -/
theorem toIndexRow_eq_map (nodes : List GNode) (order : List String)
    (hlen : order.length = nodes.length) :
    toIndexRow nodes order = order.map (fun id => (idxMap nodes id).getD 0) := by
  rw [toIndexRow]
  apply List.ext_getElem
  · simp [hlen]
  · intro i h1 h2
    simp only [List.getElem_map, List.getElem_range]
    rw [List.get?_eq_getElem?, List.getElem?_eq_getElem (by simpa using h2)]

/-- Translating an ordering that is a permutation of the row's IDs gives
a permutation of the index range. -/
theorem toIndexRow_perm (nodes : List GNode) (hnd : (nodes.map GNode.ID).Nodup)
    (order : List String) (hperm : order.Perm (nodes.map GNode.ID)) :
    (toIndexRow nodes order).Perm (List.range nodes.length) := by
  rw [toIndexRow_eq_map nodes order (by simpa using hperm.length_eq)]
  refine ((hperm.map _).trans ?_)
  have : (nodes.map GNode.ID).map (fun id => (idxMap nodes id).getD 0) =
      List.range nodes.length := by
    apply List.ext_getElem
    · simp
    · intro i h1 h2
      simp only [List.getElem_map, List.getElem_range]
      have hilt : i < nodes.length := by simpa using h2
      have hx : (nodes.map GNode.ID).get? i = some (nodes[i].ID) := by
        rw [List.get?_eq_getElem?, List.getElem?_eq_getElem (by simpa using hilt)]
        simp
      rw [idxMap_of_get? nodes hnd i _ hx]
      rfl
  rw [this]

theorem countCrossingsIdx_nil_right (tbl : List (List Nat)) (u : List Nat) :
    countCrossingsIdx tbl u [] = 0 := by
  have h : edgePairsIdx tbl u [] = [] := by
    rw [edgePairsIdx]
    simp
  rw [countCrossingsIdx, h]
  rfl

theorem countCrossingsIdx_nil_left (tbl : List (List Nat)) (l : List Nat) :
    countCrossingsIdx tbl [] l = 0 := rfl

end Dag

namespace RowOrdering

open Dag

theorem wmedian_perm (g : DAG) (nodes : List GNode) (current fixed : List String)
    (useParents : Bool) :
    (wmedian g nodes current fixed useParents).Perm (nodes.map GNode.ID) := by
  simp only [wmedian]
  by_cases h1 : nodes.length ≤ 1
  · rw [if_pos h1]
    exact List.Perm.refl _
  · rw [if_neg h1]
    refine ((List.mergeSort_perm _ entLe).map NodeEntry.id).trans ?_
    rw [List.map_map]
    have hmap : nodes.map (NodeEntry.id ∘ (fun n =>
        NodeEntry.mk n.ID
          (weightedMedian (if useParents then g.parents n.ID else g.children n.ID)
            (posMap fixed)).1
          (weightedMedian (if useParents then g.parents n.ID else g.children n.ID)
            (posMap fixed)).2
          (match posMap current n.ID with
           | some p => p
           | none => current.length))) = nodes.map GNode.ID :=
      List.map_congr_left (fun n _ => rfl)
    rw [hmap]

theorem orderByMinParent_perm (g : DAG) (nodes : List GNode) (parentOrder : List String) :
    (orderByMinParent g nodes parentOrder).Perm (nodes.map GNode.ID) := by
  simp only [orderByMinParent]
  refine ((List.mergeSort_perm _ mpLe).map MPEntry.id).trans ?_
  rw [List.map_map]
  have hmap : nodes.map (MPEntry.id ∘ (fun n =>
      MPEntry.mk n.ID
        (((g.parents n.ID).filterMap (posMap parentOrder)).foldl
          (fun acc p => if p < acc then p else acc) parentOrder.length)
        (if 0 < ((g.parents n.ID).filterMap (posMap parentOrder)).length then
          ((((g.parents n.ID).filterMap (posMap parentOrder)).sum : Nat) : Rat) /
            ((((g.parents n.ID).filterMap (posMap parentOrder)).length : Nat) : Rat)
         else ((((g.parents n.ID).filterMap (posMap parentOrder)).foldl
          (fun acc p => if p < acc then p else acc) parentOrder.length : Nat) : Rat)))) =
      nodes.map GNode.ID :=
    List.map_congr_left (fun n _ => rfl)
  rw [hmap]

theorem sweepGo_perm (g : DAG) (adjPos : String → Option Nat) (useParents : Bool) :
    ∀ (rest : List String) (a : String),
      ((sweepGo g adjPos useParents a rest).1).Perm (a :: rest) := by
  intro rest
  induction rest with
  | nil =>
    intro a
    exact List.Perm.refl _
  | cons b rest ih =>
    intro a
    simp only [sweepGo]
    by_cases hskip : (match g.node a, g.node b with
        | some na, some nb => decide (na.effID = nb.effID)
        | _, _ => false) = true
    · rw [if_pos hskip]
      exact (ih b).cons a
    · rw [if_neg hskip]
      by_cases hlt : countPairCrossingsWithPos g b a adjPos useParents <
          countPairCrossingsWithPos g a b adjPos useParents
      · rw [if_pos hlt]
        refine ((ih a).cons b).trans ?_
        exact List.Perm.swap a b rest
      · rw [if_neg hlt]
        exact (ih b).cons a

theorem sweepOnce_perm (g : DAG) (adjPos : String → Option Nat) (useParents : Bool) :
    ∀ (order : List String), ((sweepOnce g adjPos useParents order).1).Perm order := by
  intro order
  cases order with
  | nil => exact List.Perm.refl _
  | cons a rest => exact sweepGo_perm g adjPos useParents rest a

theorem transposeLoop_perm (g : DAG) (adjPos : String → Option Nat) (useParents : Bool) :
    ∀ (fuel : Nat) (order : List String),
      (transposeLoop g adjPos useParents fuel order).Perm order := by
  intro fuel
  induction fuel with
  | zero =>
    intro order
    exact List.Perm.refl _
  | succ fuel ih =>
    intro order
    simp only [transposeLoop]
    by_cases hs : (sweepOnce g adjPos useParents order).2 = true
    · rw [if_pos hs]
      exact (ih _).trans (sweepOnce_perm g adjPos useParents order)
    · rw [if_neg hs]
      exact sweepOnce_perm g adjPos useParents order

theorem transpose_apply_ne (g : DAG) (orders : RowMap) (row adjRow : Int)
    (useParents : Bool) (r : Int) (h : r ≠ row) :
    transpose g orders row adjRow useParents r = orders r := by
  rw [transpose]
  cases ho : orders row with
  | none => rfl
  | some order =>
    show (if order.length < 2 then orders else updMap orders row
      (transposeLoop g (posMap ((orders adjRow).getD [])) useParents
        (pairCrossSum g (posMap ((orders adjRow).getD [])) useParents order + 1) order)) r =
      orders r
    by_cases hlen : order.length < 2
    · rw [if_pos hlen]
    · rw [if_neg hlen]
      rw [updMap, if_neg h]

theorem updMap_rowPerm (g : DAG) (m : RowMap) (r : Int) (v : List String)
    (hv : v.Perm ((g.nodesInRow r).map GNode.ID)) (hRP : RowPermMap g m) :
    RowPermMap g (updMap m r v) := by
  intro r' hr' hne'
  by_cases heq : r' = r
  · subst heq
    exact ⟨v, by rw [updMap, if_pos rfl], hv⟩
  · obtain ⟨ord, ho, hperm⟩ := hRP r' hr' hne'
    exact ⟨ord, by rw [updMap, if_neg heq]; exact ho, hperm⟩

theorem transpose_apply_row_short (g : DAG) (orders : RowMap) (row adjRow : Int)
    (useParents : Bool) (ord : List String) (ho : orders row = some ord)
    (hlen : ord.length < 2) :
    transpose g orders row adjRow useParents row = some ord := by
  rw [transpose, ho]
  show (if ord.length < 2 then orders else updMap orders row
    (transposeLoop g (posMap ((orders adjRow).getD [])) useParents
      (pairCrossSum g (posMap ((orders adjRow).getD [])) useParents ord + 1) ord)) row =
    some ord
  rw [if_pos hlen]
  exact ho

theorem transpose_apply_row (g : DAG) (orders : RowMap) (row adjRow : Int)
    (useParents : Bool) (ord : List String) (ho : orders row = some ord)
    (hlen : ¬ ord.length < 2) :
    transpose g orders row adjRow useParents row =
      some (transposeLoop g (posMap ((orders adjRow).getD [])) useParents
        (pairCrossSum g (posMap ((orders adjRow).getD [])) useParents ord + 1) ord) := by
  rw [transpose, ho]
  show (if ord.length < 2 then orders else updMap orders row
    (transposeLoop g (posMap ((orders adjRow).getD [])) useParents
      (pairCrossSum g (posMap ((orders adjRow).getD [])) useParents ord + 1) ord)) row = _
  rw [if_neg hlen, updMap, if_pos rfl]

theorem transpose_rowPerm (g : DAG) (orders : RowMap) (row adjRow : Int)
    (useParents : Bool) (hRP : RowPermMap g orders) :
    RowPermMap g (transpose g orders row adjRow useParents) := by
  intro r hr hne
  by_cases hreq : r = row
  · subst hreq
    obtain ⟨ord, ho, hperm⟩ := hRP r hr hne
    by_cases hlen : ord.length < 2
    · exact ⟨ord, transpose_apply_row_short g orders r adjRow useParents ord ho hlen, hperm⟩
    · refine ⟨_, transpose_apply_row g orders r adjRow useParents ord ho hlen, ?_⟩
      exact (transposeLoop_perm g _ useParents _ ord).trans hperm
  · rw [transpose_apply_ne g orders row adjRow useParents r hreq]
    exact hRP r hr hne

theorem upSweep_rowPerm (g : DAG) (rows : List Int) (rowNodes : Int → List GNode)
    (hrn : ∀ r, rowNodes r = g.nodesInRow r) (orders : RowMap)
    (hRP : RowPermMap g orders) : RowPermMap g (upSweep g rows rowNodes orders) := by
  rw [upSweep]
  have haux : ∀ (l : List Int) (m : RowMap), RowPermMap g m →
      RowPermMap g (l.foldl (fun m r =>
        transpose g (updMap m r
          (wmedian g (rowNodes r) ((m r).getD []) ((m (r - 1)).getD []) true)) r (r - 1)
          true) m) := by
    intro l
    induction l with
    | nil =>
      intro m hm
      exact hm
    | cons a as ih =>
      intro m hm
      rw [List.foldl_cons]
      refine ih _ (transpose_rowPerm g _ a (a - 1) true ?_)
      refine updMap_rowPerm g m a _ ?_ hm
      rw [← hrn a]
      exact wmedian_perm g (rowNodes a) _ _ true
  exact haux rows.tail orders hRP

theorem downSweep_rowPerm (g : DAG) (rows : List Int) (rowNodes : Int → List GNode)
    (hrn : ∀ r, rowNodes r = g.nodesInRow r) (orders : RowMap)
    (hRP : RowPermMap g orders) : RowPermMap g (downSweep g rows rowNodes orders) := by
  rw [downSweep]
  have haux : ∀ (l : List Int) (m : RowMap), RowPermMap g m →
      RowPermMap g (l.foldl (fun m r =>
        transpose g (updMap m r
          (wmedian g (rowNodes r) ((m r).getD []) ((m (r + 1)).getD []) false)) r (r + 1)
          false) m) := by
    intro l
    induction l with
    | nil =>
      intro m hm
      exact hm
    | cons a as ih =>
      intro m hm
      rw [List.foldl_cons]
      refine ih _ (transpose_rowPerm g _ a (a + 1) false ?_)
      refine updMap_rowPerm g m a _ ?_ hm
      rw [← hrn a]
      exact wmedian_perm g (rowNodes a) _ _ false
  exact haux rows.dropLast.reverse orders hRP

theorem revOrders_fold_not_mem (orders : RowMap) :
    ∀ (l : List Int) (m₀ : RowMap) (r : Int), r ∉ l →
      (l.foldl (fun m r' => updMap m r' ((orders r').getD []).reverse) m₀) r = m₀ r := by
  intro l
  induction l with
  | nil =>
    intro m₀ r _
    rfl
  | cons a as ih =>
    intro m₀ r hr
    rw [List.foldl_cons, ih _ r (fun h => hr (List.mem_cons_of_mem a h))]
    rw [updMap, if_neg (fun h => hr (by rw [h]; exact List.mem_cons_self a as))]

theorem revOrders_fold_mem (orders : RowMap) :
    ∀ (l : List Int) (m₀ : RowMap) (r : Int), r ∈ l →
      (l.foldl (fun m r' => updMap m r' ((orders r').getD []).reverse) m₀) r =
        some ((orders r).getD []).reverse := by
  intro l
  induction l with
  | nil =>
    intro m₀ r hr
    exact absurd hr (List.not_mem_nil r)
  | cons a as ih =>
    intro m₀ r hr
    rw [List.foldl_cons]
    by_cases hras : r ∈ as
    · exact ih _ r hras
    · have hra : r = a := by
        rcases List.mem_cons.1 hr with h | h
        · exact h
        · exact absurd h hras
      subst hra
      rw [revOrders_fold_not_mem orders as _ r hras]
      rw [updMap, if_pos rfl]

theorem reverseOrders_rowPerm (g : DAG) (orders : RowMap) (hRP : RowPermMap g orders) :
    RowPermMap g (reverseOrders orders g.rowIDs) := by
  intro r hr hne
  obtain ⟨ord, ho, hperm⟩ := hRP r hr hne
  refine ⟨ord.reverse, ?_, (List.reverse_perm ord).trans hperm⟩
  rw [reverseOrders, revOrders_fold_mem orders g.rowIDs _ r hr, ho]
  rfl

theorem initFold_isSome (g : DAG) (rowNodes : Int → List GNode) :
    ∀ (l : List Int) (m : RowMap) (r : Int),
      ((m r).isSome = true ∨ (r ∈ l ∧ (rowNodes r).length ≠ 0)) →
      ((l.foldl (fun m r' =>
        if (rowNodes r').length ≠ 0 then
          updMap m r' (orderByMinParent g (rowNodes r') ((m (r' - 1)).getD []))
        else m) m) r).isSome = true := by
  intro l
  induction l with
  | nil =>
    intro m r h
    rcases h with h | h
    · exact h
    · exact absurd h.1 (List.not_mem_nil r)
  | cons a as ih =>
    intro m r h
    rw [List.foldl_cons]
    have hstep : ∀ (m' : RowMap), (m' r).isSome = true →
        (((if (rowNodes a).length ≠ 0 then
          updMap m' a (orderByMinParent g (rowNodes a) ((m' (a - 1)).getD []))
          else m') : RowMap) r).isSome = true := by
      intro m' hm'
      by_cases ha : (rowNodes a).length ≠ 0
      · rw [if_pos ha, updMap]
        by_cases hra : r = a
        · rw [if_pos hra]
          rfl
        · rw [if_neg hra]
          exact hm'
      · rw [if_neg ha]
        exact hm'
    rcases h with h | ⟨hmem, hlen⟩
    · exact ih _ r (Or.inl (hstep m h))
    · rcases List.mem_cons.1 hmem with hra | hras
      · subst hra
        refine ih _ r (Or.inl ?_)
        rw [if_pos hlen, updMap, if_pos rfl]
        rfl
      · exact ih _ r (Or.inr ⟨hras, hlen⟩)

theorem initFold_sound (g : DAG) (rowNodes : Int → List GNode)
    (hrn : ∀ r, rowNodes r = g.nodesInRow r) :
    ∀ (l : List Int) (m : RowMap),
      (∀ r ord, m r = some ord → ord.Perm ((g.nodesInRow r).map GNode.ID)) →
      ∀ r ord, (l.foldl (fun m r' =>
        if (rowNodes r').length ≠ 0 then
          updMap m r' (orderByMinParent g (rowNodes r') ((m (r' - 1)).getD []))
        else m) m) r = some ord → ord.Perm ((g.nodesInRow r).map GNode.ID) := by
  intro l
  induction l with
  | nil =>
    intro m hm r ord h
    exact hm r ord h
  | cons a as ih =>
    intro m hm r ord h
    rw [List.foldl_cons] at h
    refine ih _ ?_ r ord h
    intro r' ord' h'
    by_cases ha : (rowNodes a).length ≠ 0
    · rw [if_pos ha, updMap] at h'
      by_cases hra : r' = a
      · rw [if_pos hra] at h'
        have hord : ord' = orderByMinParent g (rowNodes a) ((m (a - 1)).getD []) :=
          (Option.some.inj h').symm
        rw [hord, hra, ← hrn a]
        exact orderByMinParent_perm g (rowNodes a) _
      · rw [if_neg hra] at h'
        exact hm r' ord' h'
    · rw [if_neg ha] at h'
      exact hm r' ord' h'

theorem initOrders_rowPerm (g : DAG) (rowNodes : Int → List GNode)
    (hrn : ∀ r, rowNodes r = g.nodesInRow r) (hrows : g.rowIDs ≠ []) :
    RowPermMap g (initOrders g g.rowIDs rowNodes) := by
  intro r hr hne
  rw [initOrders, if_neg hrows]
  have hm0 : ∀ r' ord, (updMap (fun _ => none) (g.rowIDs.headD 0)
      ((nodeIDs (rowNodes (g.rowIDs.headD 0))).mergeSort (fun a b => decide (a ≤ b))) r')
      = some ord → ord.Perm ((g.nodesInRow r').map GNode.ID) := by
    intro r' ord h
    rw [updMap] at h
    by_cases hr' : r' = g.rowIDs.headD 0
    · rw [if_pos hr'] at h
      have hord : ord = (nodeIDs (rowNodes (g.rowIDs.headD 0))).mergeSort
          (fun a b => decide (a ≤ b)) := (Option.some.inj h).symm
      rw [hord, hr', ← hrn (g.rowIDs.headD 0)]
      exact List.mergeSort_perm (nodeIDs (rowNodes (g.rowIDs.headD 0))) _
    · rw [if_neg hr'] at h
      exact Option.noConfusion h
  have hsome : ((g.rowIDs.tail.foldl (fun m r' =>
      if (rowNodes r').length ≠ 0 then
        updMap m r' (orderByMinParent g (rowNodes r') ((m (r' - 1)).getD []))
      else m)
      (updMap (fun _ => none) (g.rowIDs.headD 0)
        ((nodeIDs (rowNodes (g.rowIDs.headD 0))).mergeSort
          (fun a b => decide (a ≤ b))))) r).isSome = true := by
    refine initFold_isSome g rowNodes g.rowIDs.tail _ r ?_
    cases hrid : g.rowIDs with
    | nil => exact absurd hrid hrows
    | cons f rest =>
      rw [hrid] at hr
      rcases List.mem_cons.1 hr with hrf | hrrest
      · left
        rw [updMap]
        rw [if_pos (show r = (f :: rest).headD 0 from hrf)]
        rfl
      · right
        refine ⟨show r ∈ (f :: rest).tail from hrrest, ?_⟩
        rw [hrn r]
        intro hcon
        exact hne (List.length_eq_zero.1 hcon)
  obtain ⟨ord, hord⟩ := Option.isSome_iff_exists.1 hsome
  refine ⟨ord, hord, ?_⟩
  exact initFold_sound g rowNodes hrn g.rowIDs.tail _ hm0 r ord hord

theorem runPassesGo_rowPerm (g : DAG) (rows : List Int) (rowNodes : Int → List GNode)
    (passes : Nat) (hrn : ∀ r, rowNodes r = g.nodesInRow r) :
    ∀ (fuel pass : Nat) (orders best : RowMap) (bestScore staleCount : Nat),
      RowPermMap g orders → RowPermMap g best →
      RowPermMap g (runPassesGo g rows rowNodes passes fuel pass orders best bestScore
        staleCount).1 := by
  intro fuel
  induction fuel with
  | zero =>
    intro pass orders best bestScore staleCount _ hbest
    exact hbest
  | succ fuel ih =>
    intro pass orders best bestScore staleCount horders hbest
    simp only [runPassesGo]
    by_cases h0 : bestScore = 0
    · rw [if_pos h0]
      exact hbest
    · rw [if_neg h0]
      have horders' : RowPermMap g (if pass % 2 = 0 then upSweep g rows rowNodes orders
          else downSweep g rows rowNodes orders) := by
        by_cases hp : pass % 2 = 0
        · rw [if_pos hp]
          exact upSweep_rowPerm g rows rowNodes hrn orders horders
        · rw [if_neg hp]
          exact downSweep_rowPerm g rows rowNodes hrn orders horders
      by_cases hlt : CountCrossings g (if pass % 2 = 0 then upSweep g rows rowNodes orders
          else downSweep g rows rowNodes orders) < bestScore
      · rw [if_pos hlt]
        by_cases hstale : 4 ≤ (0 : Nat) ∧ CountCrossings g (if pass % 2 = 0 then
            upSweep g rows rowNodes orders else downSweep g rows rowNodes orders) = bestScore
        · rw [if_pos hstale]
          exact horders'
        · rw [if_neg hstale]
          exact ih _ _ _ _ _ horders' horders'
      · rw [if_neg hlt]
        by_cases hstale : 4 ≤ staleCount + 1 ∧ CountCrossings g (if pass % 2 = 0 then
            upSweep g rows rowNodes orders else downSweep g rows rowNodes orders) = bestScore
        · rw [if_pos hstale]
          exact hbest
        · rw [if_neg hstale]
          exact ih _ _ _ _ _ horders' hbest

theorem runPasses_rowPerm (g : DAG) (rows : List Int) (rowNodes : Int → List GNode)
    (init : RowMap) (passes : Nat) (hrn : ∀ r, rowNodes r = g.nodesInRow r)
    (hinit : RowPermMap g init) :
    RowPermMap g (runPasses g rows rowNodes init passes).1 := by
  rw [runPasses]
  exact runPassesGo_rowPerm g rows rowNodes passes hrn passes 0 init init
    (CountCrossings g init) 0 hinit hinit

/-- The map produced by the barycentric orderer assigns every non-empty
row a permutation of that row's node IDs. -/
theorem baryOrderRowsMap_rowPerm (b : Barycentric) (g : DAG) (hrows : g.rowIDs ≠ []) :
    RowPermMap g (baryOrderRowsMap b g) := by
  simp only [baryOrderRowsMap]
  have hinit : RowPermMap g (initOrders g g.rowIDs (fun r => g.nodesInRow r)) :=
    initOrders_rowPerm g (fun r => g.nodesInRow r) (fun r => rfl) hrows
  by_cases h0 : CountCrossings g (initOrders g g.rowIDs (fun r => g.nodesInRow r)) = 0
  · rw [if_pos h0]
    exact hinit
  · rw [if_neg h0]
    have hr1 : RowPermMap g (runPasses g g.rowIDs (fun r => g.nodesInRow r)
        (initOrders g g.rowIDs (fun r => g.nodesInRow r))
        (if b.Passes ≤ 0 then defaultPasses else b.Passes.toNat)).1 :=
      runPasses_rowPerm g g.rowIDs (fun r => g.nodesInRow r) _ _ (fun r => rfl) hinit
    by_cases hlt1 : (runPasses g g.rowIDs (fun r => g.nodesInRow r)
        (initOrders g g.rowIDs (fun r => g.nodesInRow r))
        (if b.Passes ≤ 0 then defaultPasses else b.Passes.toNat)).2 <
        CountCrossings g (initOrders g g.rowIDs (fun r => g.nodesInRow r))
    · rw [if_pos hlt1, if_pos hlt1]
      by_cases h02 : (runPasses g g.rowIDs (fun r => g.nodesInRow r)
          (initOrders g g.rowIDs (fun r => g.nodesInRow r))
          (if b.Passes ≤ 0 then defaultPasses else b.Passes.toNat)).2 = 0
      · rw [if_pos h02]
        exact hr1
      · rw [if_neg h02]
        have hrev : RowPermMap g (reverseOrders (runPasses g g.rowIDs
            (fun r => g.nodesInRow r) (initOrders g g.rowIDs (fun r => g.nodesInRow r))
            (if b.Passes ≤ 0 then defaultPasses else b.Passes.toNat)).1 g.rowIDs) :=
          reverseOrders_rowPerm g _ hr1
        have hr2 : RowPermMap g (runPasses g g.rowIDs (fun r => g.nodesInRow r)
            (reverseOrders (runPasses g g.rowIDs (fun r => g.nodesInRow r)
              (initOrders g g.rowIDs (fun r => g.nodesInRow r))
              (if b.Passes ≤ 0 then defaultPasses else b.Passes.toNat)).1 g.rowIDs)
            (if b.Passes ≤ 0 then defaultPasses else b.Passes.toNat)).1 :=
          runPasses_rowPerm g g.rowIDs (fun r => g.nodesInRow r) _ _ (fun r => rfl) hrev
        by_cases hlt2 : (runPasses g g.rowIDs (fun r => g.nodesInRow r)
            (reverseOrders (runPasses g g.rowIDs (fun r => g.nodesInRow r)
              (initOrders g g.rowIDs (fun r => g.nodesInRow r))
              (if b.Passes ≤ 0 then defaultPasses else b.Passes.toNat)).1 g.rowIDs)
            (if b.Passes ≤ 0 then defaultPasses else b.Passes.toNat)).2 <
            (runPasses g g.rowIDs (fun r => g.nodesInRow r)
              (initOrders g g.rowIDs (fun r => g.nodesInRow r))
              (if b.Passes ≤ 0 then defaultPasses else b.Passes.toNat)).2
        · rw [if_pos hlt2]
          exact hr2
        · rw [if_neg hlt2]
          exact hr1
    · rw [if_neg hlt1, if_neg hlt1]
      by_cases h02 : CountCrossings g (initOrders g g.rowIDs (fun r => g.nodesInRow r)) = 0
      · rw [if_pos h02]
        exact hinit
      · rw [if_neg h02]
        have hrev : RowPermMap g (reverseOrders (initOrders g g.rowIDs
            (fun r => g.nodesInRow r)) g.rowIDs) :=
          reverseOrders_rowPerm g _ hinit
        have hr2 : RowPermMap g (runPasses g g.rowIDs (fun r => g.nodesInRow r)
            (reverseOrders (initOrders g g.rowIDs (fun r => g.nodesInRow r)) g.rowIDs)
            (if b.Passes ≤ 0 then defaultPasses else b.Passes.toNat)).1 :=
          runPasses_rowPerm g g.rowIDs (fun r => g.nodesInRow r) _ _ (fun r => rfl) hrev
        by_cases hlt2 : (runPasses g g.rowIDs (fun r => g.nodesInRow r)
            (reverseOrders (initOrders g g.rowIDs (fun r => g.nodesInRow r)) g.rowIDs)
            (if b.Passes ≤ 0 then defaultPasses else b.Passes.toNat)).2 <
            CountCrossings g (initOrders g g.rowIDs (fun r => g.nodesInRow r))
        · rw [if_pos hlt2]
          exact hr2
        · rw [if_neg hlt2]
          exact hinit

/-- C7.  The candidate limit is 10000 for at most 3 rows and otherwise
10000 divided by the row count, clamped to [100, 1000]. -/
theorem calcCandidateLimit_spec (numRows : Nat) :
    calcCandidateLimit numRows =
      if numRows ≤ 3 then 10000 else clamp 100 1000 (10000 / numRows) := rfl

/-- Witness for calcCandidateLimit_spec at 7 rows (and the concrete
values on both sides of the guard). -/
theorem calcCandidateLimit_spec_witness :
    calcCandidateLimit 7 = (if (7 : Nat) ≤ 3 then 10000 else clamp 100 1000 (10000 / 7)) ∧
      calcCandidateLimit 7 = 1000 ∧ calcCandidateLimit 2 = 10000 ∧
      calcCandidateLimit 50 = 200 ∧ calcCandidateLimit 200 = 100 :=
  ⟨calcCandidateLimit_spec 7, by decide, by decide, by decide, by decide⟩

/-- C9.  Every updateBest call writes monotonically: the stored
bestScore never increases, and it is replaced exactly when the new score
is strictly smaller (in which case the new value is that score). -/
theorem updateBest_monotonic (st : BestCell) (path : List (Option (List Nat))) (score : Int) :
    (updateBest st path score).bestScore ≤ st.bestScore ∧
      ((updateBest st path score).bestScore ≠ st.bestScore → score < st.bestScore) ∧
      (score < st.bestScore → (updateBest st path score).bestScore = score) := by
  by_cases h : score ≥ st.bestScore <;> simp [updateBest, h] <;> omega

/-- Witness for updateBest_monotonic at a concrete cell and score. -/
theorem updateBest_monotonic_witness :
    (updateBest ⟨10, [], 0⟩ [some [0]] 4).bestScore ≤ (10 : Int) ∧
      ((updateBest ⟨10, [], 0⟩ [some [0]] 4).bestScore ≠ (10 : Int) → (4 : Int) < 10) ∧
      ((4 : Int) < 10 → (updateBest ⟨10, [], 0⟩ [some [0]] 4).bestScore = 4) :=
  updateBest_monotonic ⟨10, [], 0⟩ [some [0]] 4

theorem Generate_mem_perm {n : Nat} {limit : Int} {p : List Nat}
    (hp : p ∈ Generate n limit) : p.Perm (List.range n) := by
  simp only [Generate] at hp
  by_cases hl : limit < 0
  · rw [if_pos hl] at hp
    exact Perm.heapPerms_perm hp
  · rw [if_neg hl] at hp
    exact Perm.heapPerms_perm (List.mem_of_mem_take hp)

theorem fallbackPermutations_mem_perm {cl n : Nat} {p : List Nat}
    (hp : p ∈ fallbackPermutations cl n) : p.Perm (List.range n) := by
  rw [fallbackPermutations] at hp
  by_cases h8 : n ≤ 8
  · rw [if_pos h8] at hp
    exact Generate_mem_perm hp
  · rw [if_neg h8] at hp
    exact Generate_mem_perm hp

theorem applyParentLoop_preserve (g : DAG) (row : Int) (nodeIdx : String → Option Nat)
    (prevNodes : List GNode) (n : Nat) :
    ∀ (idxs : List Nat) (t : Perm.PQTree), rootPerm n t →
      rootPerm n (applyParentLoop g row nodeIdx prevNodes t idxs).2 := by
  intro idxs
  induction idxs with
  | nil =>
    intro t ht
    exact ht
  | cons idx rest ih =>
    intro t ht
    obtain ⟨r, hroot, hperm⟩ := ht
    simp only [applyParentLoop]
    by_cases hc : 2 ≤ (List.filterMap nodeIdx
        (g.childrenInRow ((prevNodes.getD idx default).ID) row)).length
    · rw [if_pos hc]
      have hred := Perm.Reduce_preserve t (List.map (fun (x : Nat) => (x : Int))
        (List.filterMap nodeIdx (g.childrenInRow ((prevNodes.getD idx default).ID) row)))
        r hroot
      obtain ⟨_, r', hroot', hperm'⟩ := hred
      by_cases h1 : (Perm.Reduce t (List.map (fun (x : Nat) => (x : Int))
          (List.filterMap nodeIdx
            (g.childrenInRow ((prevNodes.getD idx default).ID) row)))).1 = true
      · rw [if_neg (by rw [h1]; simp)]
        exact ih _ ⟨r', hroot', hperm'.trans hperm⟩
      · rw [if_pos (by rw [Bool.eq_false_iff.2 h1]; rfl)]
        exact ⟨r', hroot', hperm'.trans hperm⟩
    · rw [if_neg hc]
      exact ih t ⟨r, hroot, hperm⟩

theorem applyChildLoop_preserve (g : DAG) (row : Int) (nodeIdx : String → Option Nat)
    (n : Nat) :
    ∀ (children : List GNode) (t : Perm.PQTree), rootPerm n t →
      rootPerm n (applyChildLoop g row nodeIdx t children).2 := by
  intro children
  induction children with
  | nil =>
    intro t ht
    exact ht
  | cons child rest ih =>
    intro t ht
    obtain ⟨r, hroot, hperm⟩ := ht
    simp only [applyChildLoop]
    by_cases hc : 2 ≤ (List.filterMap nodeIdx (g.parentsInRow child.ID row)).length
    · rw [if_pos hc]
      have hred := Perm.Reduce_preserve t (List.map (fun (x : Nat) => (x : Int))
        (List.filterMap nodeIdx (g.parentsInRow child.ID row))) r hroot
      obtain ⟨_, r', hroot', hperm'⟩ := hred
      by_cases h1 : (Perm.Reduce t (List.map (fun (x : Nat) => (x : Int))
          (List.filterMap nodeIdx (g.parentsInRow child.ID row)))).1 = true
      · rw [if_neg (by rw [h1]; simp)]
        exact ih _ ⟨r', hroot', hperm'.trans hperm⟩
      · rw [if_pos (by rw [Bool.eq_false_iff.2 h1]; rfl)]
        exact ⟨r', hroot', hperm'.trans hperm⟩
    · rw [if_neg hc]
      exact ih t ⟨r, hroot, hperm⟩

theorem generateC1PCandidates_perm (c : SCtx) (depth : Nat) (nodes : List GNode)
    (prevOrder : List Nat) (prevNodes : List GNode) :
    ∀ p ∈ generateC1PCandidates c depth nodes prevOrder prevNodes,
      p.Perm (List.range nodes.length) := by
  intro p hp
  simp only [generateC1PCandidates] at hp
  by_cases hn : nodes.length ≤ 1
  · rw [if_pos hn] at hp
    have hps : p = Seq nodes.length := by simpa using hp
    rw [hps]
    exact List.Perm.refl _
  · rw [if_neg hn] at hp
    have hn1 : 1 ≤ nodes.length := by omega
    have htree : rootPerm nodes.length (Perm.NewPQTree nodes.length) :=
      Perm.NewPQTree_rootPerm nodes.length hn1
    set rp := applyParentLoop c.g (c.rows.getD depth 0) (idxMap nodes) prevNodes
      (Perm.NewPQTree nodes.length) prevOrder with hrpdef
    have hrp : rootPerm nodes.length rp.2 := by
      rw [hrpdef]
      exact applyParentLoop_preserve c.g (c.rows.getD depth 0) (idxMap nodes)
        prevNodes nodes.length prevOrder _ htree
    by_cases h1 : rp.1 = true
    · rw [if_neg (by rw [h1]; simp)] at hp
      set rc := (if c.rows.length - 1 ≤ depth then (true, rp.2)
        else applyChildLoop c.g (c.rows.getD depth 0) (idxMap nodes) rp.2
          (c.rowNodes (c.rows.getD (depth + 1) 0))) with hrcdef
      have hrc : rootPerm nodes.length rc.2 := by
        rw [hrcdef]
        by_cases hlast : c.rows.length - 1 ≤ depth
        · rw [if_pos hlast]
          exact hrp
        · rw [if_neg hlast]
          exact applyChildLoop_preserve c.g (c.rows.getD depth 0) (idxMap nodes)
            nodes.length _ _ hrp
      by_cases h2 : rc.1 = true
      · rw [if_neg (by rw [h2]; simp)] at hp
        obtain ⟨r, hroot, hperm⟩ := hrc
        by_cases hemp : (Perm.Enumerate rc.2 (if nodes.length ≤ 8 then
            Perm.ValidCount rc.2 else (c.candLimit : Int))).isEmpty = true
        · rw [if_pos hemp] at hp
          exact fallbackPermutations_mem_perm hp
        · rw [if_neg hemp] at hp
          exact Perm.Enumerate_mem_perm _ _ nodes.length r hroot hperm p hp
      · rw [if_pos (by rw [Bool.eq_false_iff.2 h2]; rfl)] at hp
        exact fallbackPermutations_mem_perm hp
    · rw [if_pos (by rw [Bool.eq_false_iff.2 h1]; rfl)] at hp
      exact fallbackPermutations_mem_perm hp

theorem sortByBarycenter_mem {perms : List (List Nat)} {g : DAG} {nodes : List GNode}
    {prevPos : String → Option Nat} {p : List Nat}
    (hp : p ∈ sortByBarycenter perms g nodes prevPos) : p ∈ perms := by
  rw [sortByBarycenter] at hp
  exact (List.mergeSort_perm perms _).mem_iff.1 hp

theorem candidatesAt_perm (c : SCtx) (depth : Nat) (path : List (Option (List Nat))) :
    ∀ cnd ∈ candidatesAt c depth path,
      cnd.Perm (List.range (c.rowNodes (c.rows.getD depth 0)).length) := by
  intro cnd hc
  simp only [candidatesAt] at hc
  exact generateC1PCandidates_perm c depth _ _ _ cnd (sortByBarycenter_mem hc)

theorem generateStartPermutations_mem_perm (c : SCtx) (parallelRow : Nat)
    (pre : List (Option (List Nat))) (workerLimit : Nat) :
    ∀ s ∈ generateStartPermutations c parallelRow pre workerLimit,
      s.Perm (List.range (c.rowNodes (c.rows.getD parallelRow 0)).length) := by
  intro s hs
  simp only [generateStartPermutations] at hs
  by_cases h0 : parallelRow = 0
  · rw [if_pos h0] at hs
    by_cases h8 : (c.rowNodes (c.rows.getD parallelRow 0)).length ≤ 8
    · rw [if_pos h8] at hs
      exact Generate_mem_perm hs
    · rw [if_neg h8] at hs
      exact Generate_mem_perm hs
  · rw [if_neg h0] at hs
    have hmem := sortByBarycenter_mem hs
    have hmem2 : s ∈ generateC1PCandidates c parallelRow
        (c.rowNodes (c.rows.getD parallelRow 0))
        ((pre.getD (parallelRow - 1) none).getD [])
        (c.rowNodes (c.rows.getD (parallelRow - 1) 0)) := by
      by_cases hwl : workerLimit < (generateC1PCandidates c parallelRow
          (c.rowNodes (c.rows.getD parallelRow 0))
          ((pre.getD (parallelRow - 1) none).getD [])
          (c.rowNodes (c.rows.getD (parallelRow - 1) 0))).length
      · rw [if_pos hwl] at hmem
        exact List.mem_of_mem_take hmem
      · rw [if_neg hwl] at hmem
        exact hmem
    exact generateC1PCandidates_perm c parallelRow _ _ _ s hmem2

theorem scoreSum_succ (c : SCtx) (path : List (Option (List Nat))) (d : Nat) :
    scoreSum c path (d + 1) = scoreSum c path d +
      (if d = 0 then 0
       else countCrossingsIdx (c.tables.getD (d - 1) [])
        ((path.getD (d - 1) none).getD []) ((path.getD d none).getD [])) := by
  rw [scoreSum, scoreSum, List.range_succ, List.map_append, List.sum_append]
  simp

theorem scoreSum_congr (c : SCtx) {path path' : List (Option (List Nat))} (d : Nat)
    (h : ∀ i, i < d → path.getD i none = path'.getD i none) :
    scoreSum c path d = scoreSum c path' d := by
  rw [scoreSum, scoreSum]
  congr 1
  refine List.map_congr_left ?_
  intro i hi
  have hid : i < d := List.mem_range.1 hi
  by_cases h0 : i = 0
  · rw [if_pos h0, if_pos h0]
  · rw [if_neg h0, if_neg h0, h i hid, h (i - 1) (by omega)]

theorem getD_set_ne {α : Type} (l : List α) (i j : Nat) (a d : α) (h : i ≠ j) :
    (l.set i a).getD j d = l.getD j d := by
  rw [List.getD_eq_getElem?_getD, List.getD_eq_getElem?_getD, List.getElem?_set_ne h]

theorem getD_set_self {α : Type} (l : List α) (i : Nat) (a d : α) (h : i < l.length) :
    (l.set i a).getD i d = a := by
  rw [List.getD_eq_getElem?_getD, List.getElem?_set_self (by simpa using h)]
  rfl

theorem findParallelRowGo_bound (rowNodes : Int → List GNode) :
    ∀ (rows : List Int) (i : Nat),
      findParallelRowGo rowNodes rows i < i + rows.length ∨
        findParallelRowGo rowNodes rows i = 0 := by
  intro rows
  induction rows with
  | nil =>
    intro i
    exact Or.inr rfl
  | cons r rest ih =>
    intro i
    rw [findParallelRowGo]
    by_cases h1 : 1 < (rowNodes r).length
    · rw [if_pos h1]
      left
      simp only [List.length_cons]
      omega
    · rw [if_neg h1]
      rcases ih (i + 1) with h | h
      · left
        simp only [List.length_cons]
        omega
      · exact Or.inr h

theorem findParallelRow_lt (c : SCtx) (h : c.rows ≠ []) :
    findParallelRow c < c.rows.length := by
  have hlen : 1 ≤ c.rows.length := by
    cases hr : c.rows with
    | nil => exact absurd hr h
    | cons a as => simp
  rw [findParallelRow]
  rcases findParallelRowGo_bound c.rowNodes c.rows 0 with hb | hb
  · omega
  · omega

/-- buildPrefix fills the cells before d with the identity orderings of
their rows and accumulates exactly the crossing score of that prefix. -/
theorem buildPref_spec (c : SCtx) : ∀ d, d ≤ c.rows.length →
    ((buildPref c d).1.length = c.rows.length ∧
      (∀ i, (buildPref c d).1.getD i none =
        if i < d then some (Seq ((c.rowNodes (c.rows.getD i 0)).length)) else none) ∧
      (buildPref c d).2 = scoreSum c (buildPref c d).1 d) := by
  intro d
  induction d with
  | zero =>
    intro _
    refine ⟨by simp [buildPref], ?_, rfl⟩
    intro i
    rw [if_neg (by omega)]
    rw [buildPref]
    rw [List.getD_eq_getElem?_getD]
    cases hlt : (List.replicate c.rows.length (none : Option (List Nat)))[i]? with
    | none => rfl
    | some v =>
      have := List.getElem?_mem hlt
      have hv : v = none := List.eq_of_mem_replicate this
      rw [hv]
      rfl
  | succ d ih =>
    intro hd
    obtain ⟨hlen, hcell, hsc⟩ := ih (by omega)
    have hdlt : d < c.rows.length := by omega
    constructor
    · rw [buildPref]
      simpa using hlen
    constructor
    · intro i
      rw [buildPref]
      by_cases hi : i = d
      · subst hi
        rw [getD_set_self _ _ _ _ (by rw [hlen]; exact hdlt)]
        rw [if_pos (by omega)]
      · rw [getD_set_ne _ _ _ _ _ (fun hcon => hi hcon.symm), hcell i]
        by_cases hilt : i < d
        · rw [if_pos hilt, if_pos (by omega)]
        · rw [if_neg hilt, if_neg (by omega)]
    · rw [buildPref]
      show (if 0 < d then (buildPref c d).2 +
          countCrossingsIdx (c.tables.getD (d - 1) [])
            (((buildPref c d).1.getD (d - 1) none).getD [])
            (Seq ((c.rowNodes (c.rows.getD d 0)).length))
        else (buildPref c d).2) =
        scoreSum c ((buildPref c d).1.set d
          (some (Seq ((c.rowNodes (c.rows.getD d 0)).length)))) (d + 1)
      rw [scoreSum_succ]
      have hagree : scoreSum c ((buildPref c d).1.set d
          (some (Seq ((c.rowNodes (c.rows.getD d 0)).length)))) d =
          scoreSum c (buildPref c d).1 d := by
        refine scoreSum_congr c d ?_
        intro i hi
        exact getD_set_ne _ _ _ _ _ (by omega)
      rw [hagree, ← hsc]
      by_cases h0 : d = 0
      · rw [if_neg (by omega), if_pos h0]
        omega
      · rw [if_pos (by omega), if_neg h0]
        rw [getD_set_ne _ _ _ _ _ (by omega)]
        rw [getD_set_self _ _ _ _ (by rw [hlen]; exact hdlt)]
        rfl

/-- The dfs invariant: the path always spans the rows, rows at or beyond
the current depth are unset, every visited row is either an empty row
with a nil cell or holds a permutation of its index range, and the
running score is exactly the accumulated crossing count of the visited
prefix. -/
theorem dfsReach_invariant (c : SCtx) (workers : Nat) (hrows : c.rows ≠ []) :
    ∀ {d s path}, DfsReach c workers d s path →
      (path.length = c.rows.length ∧ 1 ≤ d ∧ d ≤ c.rows.length ∧
       (∀ i, d ≤ i → path.getD i none = none) ∧
       (∀ i, i < d →
         (∃ ord, path.getD i none = some ord ∧
           ord.Perm (List.range (c.rowNodes (c.rows.getD i 0)).length)) ∨
         (path.getD i none = none ∧ c.rowNodes (c.rows.getD i 0) = [])) ∧
       s = scoreSum c path d) := by
  intro d s path h
  induction h with
  | start s hs =>
    have hpar : findParallelRow c < c.rows.length := findParallelRow_lt c hrows
    obtain ⟨hlen, hcell, hsc⟩ := buildPref_spec c (findParallelRow c) (by omega)
    have hlen' : ((buildPref c (findParallelRow c)).1.set (findParallelRow c)
        (some s)).length = c.rows.length := by
      rw [List.length_set]
      exact hlen
    refine ⟨hlen', by omega, by omega, ?_, ?_, ?_⟩
    · intro i hi
      rw [getD_set_ne _ _ _ _ _ (by omega), hcell i, if_neg (by omega)]
    · intro i hi
      by_cases hieq : i = findParallelRow c
      · subst hieq
        left
        refine ⟨s, ?_, ?_⟩
        · rw [getD_set_self _ _ _ _ (by rw [hlen]; exact hpar)]
        · exact generateStartPermutations_mem_perm c (findParallelRow c) _ _ s hs
      · left
        refine ⟨Seq ((c.rowNodes (c.rows.getD i 0)).length), ?_, List.Perm.refl _⟩
        rw [getD_set_ne _ _ _ _ _ (fun hcon => hieq hcon.symm), hcell i,
          if_pos (by omega)]
    · rw [scoreSum_succ]
      have hagree : scoreSum c ((buildPref c (findParallelRow c)).1.set
          (findParallelRow c) (some s)) (findParallelRow c) =
          scoreSum c (buildPref c (findParallelRow c)).1 (findParallelRow c) := by
        refine scoreSum_congr c _ ?_
        intro i hi
        exact getD_set_ne _ _ _ _ _ (by omega)
      rw [hagree, ← hsc]
      by_cases h0 : findParallelRow c = 0
      · rw [if_pos h0, if_neg (by omega)]
      · rw [if_neg h0, if_pos (by omega)]
        rw [getD_set_ne _ _ _ _ _ (by omega)]
        rw [getD_set_self _ _ _ _ (by omega)]
        rfl
  | @emptyRow d sc path h hd he ih =>
    obtain ⟨hlen, hd1, hdle, habove, hbelow, hsc⟩ := ih
    refine ⟨by rw [List.length_set]; exact hlen, by omega, by omega, ?_, ?_, ?_⟩
    · intro i hi
      rw [getD_set_ne _ _ _ _ _ (by omega)]
      exact habove i (by omega)
    · intro i hi
      by_cases hieq : i = d
      · subst hieq
        right
        refine ⟨?_, he⟩
        rw [getD_set_self _ _ _ _ (by rw [hlen]; exact hd)]
      · rw [getD_set_ne _ _ _ _ _ (fun hcon => hieq hcon.symm)]
        exact hbelow i (by omega)
    · rw [scoreSum_succ]
      have hagree : scoreSum c (path.set d none) d = scoreSum c path d :=
        scoreSum_congr c d (fun i hi => getD_set_ne _ _ _ _ _ (by omega))
      rw [hagree, if_neg (by omega)]
      rw [getD_set_self _ _ _ _ (by rw [hlen]; exact hd)]
      rw [getD_set_ne _ _ _ _ _ (by omega)]
      simp only [Option.getD_none]
      rw [countCrossingsIdx_nil_right]
      omega
  | @cand d sc path cnd h hd hne hc ih =>
    obtain ⟨hlen, hd1, hdle, habove, hbelow, hsc⟩ := ih
    refine ⟨by rw [List.length_set]; exact hlen, by omega, by omega, ?_, ?_, ?_⟩
    · intro i hi
      rw [getD_set_ne _ _ _ _ _ (by omega)]
      exact habove i (by omega)
    · intro i hi
      by_cases hieq : i = d
      · subst hieq
        left
        refine ⟨cnd, ?_, candidatesAt_perm c _ path cnd hc⟩
        rw [getD_set_self _ _ _ _ (by rw [hlen]; exact hd)]
      · rw [getD_set_ne _ _ _ _ _ (fun hcon => hieq hcon.symm)]
        exact hbelow i (by omega)
    · rw [scoreSum_succ]
      have hagree : scoreSum c (path.set d (some cnd)) d = scoreSum c path d :=
        scoreSum_congr c d (fun i hi => getD_set_ne _ _ _ _ _ (by omega))
      rw [hagree, if_neg (by omega)]
      rw [getD_set_self _ _ _ _ (by rw [hlen]; exact hd)]
      rw [getD_set_ne _ _ _ _ _ (by omega)]
      simp only [Option.getD_some]
      omega

theorem tso_fold_not_mem (rowNodes : Int → List GNode) (path : List (Option (List Nat))) :
    ∀ (l : List Int) (k : Nat) (m₀ : RowMap) (r : Int), r ∉ l →
    (List.foldl (fun m ir =>
      match path.getD ir.1 none with
      | none => m
      | some idx => updMap m ir.2 (idx.map (fun j => ((rowNodes ir.2).getD j default).ID)))
      m₀ (List.enumFrom k l)) r = m₀ r := by
  intro l
  induction l with
  | nil =>
    intro k m₀ r _
    rfl
  | cons a as ih =>
    intro k m₀ r hr
    rw [List.enumFrom, List.foldl_cons]
    rw [ih (k + 1) _ r (fun h => hr (List.mem_cons_of_mem a h))]
    cases hp : path.getD k none with
    | none => rfl
    | some idx =>
      show updMap m₀ a _ r = m₀ r
      rw [updMap, if_neg (fun h => hr (by rw [h]; exact List.mem_cons_self a as))]

theorem tso_fold_get (rowNodes : Int → List GNode) (path : List (Option (List Nat))) :
    ∀ (l : List Int) (k : Nat) (m₀ : RowMap), l.Nodup →
    ∀ i (hi : i < l.length),
    (List.foldl (fun m ir =>
      match path.getD ir.1 none with
      | none => m
      | some idx => updMap m ir.2 (idx.map (fun j => ((rowNodes ir.2).getD j default).ID)))
      m₀ (List.enumFrom k l)) (l.get ⟨i, hi⟩) =
      (match path.getD (k + i) none with
       | none => m₀ (l.get ⟨i, hi⟩)
       | some idx =>
         some (idx.map (fun j => ((rowNodes (l.get ⟨i, hi⟩)).getD j default).ID))) := by
  intro l
  induction l with
  | nil =>
    intro k m₀ _ i hi
    exact absurd hi (by simp)
  | cons a as ih =>
    intro k m₀ hnd i hi
    rw [List.enumFrom, List.foldl_cons]
    match i with
    | 0 =>
      have hget : (a :: as).get ⟨0, hi⟩ = a := rfl
      rw [hget]
      have hnotmem : a ∉ as := (List.nodup_cons.1 hnd).1
      rw [tso_fold_not_mem rowNodes path as (k + 1) _ a hnotmem]
      simp only [Nat.add_zero]
      cases hp : path.getD k none with
      | none => rfl
      | some idx => simp [updMap]
    | i + 1 =>
      have hget : (a :: as).get ⟨i + 1, hi⟩ = as.get ⟨i, by simpa using hi⟩ := rfl
      rw [hget]
      have hstep := ih (k + 1) (match path.getD k none with
        | none => m₀
        | some idx => updMap m₀ a (idx.map (fun j => ((rowNodes a).getD j default).ID)))
        (List.nodup_cons.1 hnd).2 i (by simpa using hi)
      rw [hstep]
      have hi' : i < as.length := by simpa using hi
      have hne : as[i] ≠ a := by
        intro hcon
        exact (List.nodup_cons.1 hnd).1 (hcon ▸ as.getElem_mem hi')
      have harith : k + 1 + i = k + (i + 1) := by omega
      rw [harith]
      cases hp : path.getD (k + (i + 1)) none with
      | none =>
        cases hp2 : path.getD k none with
        | none => rfl
        | some idx2 => simp [updMap, hne]
      | some idx => rfl

/-- With distinct row identifiers, the mapping built by toStringOrder
holds, at the i-th row, exactly the materialization of the i-th path
cell (or nothing for a nil cell). -/
theorem toStringOrder_spec (rowNodes : Int → List GNode) (rows : List Int)
    (path : List (Option (List Nat))) (hnd : rows.Nodup) (i : Nat) (hi : i < rows.length) :
    toStringOrder rowNodes rows path (rows.get ⟨i, hi⟩) =
      (match path.getD i none with
       | none => none
       | some idx =>
         some (idx.map (fun j => ((rowNodes (rows.get ⟨i, hi⟩)).getD j default).ID))) := by
  rw [toStringOrder]
  have henum : rows.enum = List.enumFrom 0 rows := rfl
  rw [henum]
  have := tso_fold_get rowNodes path rows 0 (fun _ => none) hnd i hi
  rw [this]
  have h0 : (0 : Nat) + i = i := by omega
  rw [h0]

theorem chain'_lt_nodup (l : List Int) (h : List.Chain' (· < ·) l) : l.Nodup := by
  have hp : List.Pairwise (· < ·) l := List.chain'_iff_pairwise.1 h
  exact hp.imp (fun hab => ne_of_lt hab)

theorem toIndexPath_getD (g : DAG) (rows : List Int) (order : RowMap) (i : Nat)
    (hi : i < rows.length) :
    (toIndexPath g rows order).getD i none =
      some (toIndexRow (g.nodesInRow (rows.get ⟨i, hi⟩))
        ((order (rows.get ⟨i, hi⟩)).getD [])) := by
  rw [toIndexPath, List.getD_eq_getElem?_getD, List.getElem?_map,
    List.getElem?_eq_getElem hi]
  rfl

/-- C2.  Whatever result OptimalSearch.OrderRows returns (under any
schedule), the mapping assigns every non-empty row an ordering that is a
permutation of exactly that row's node IDs — given the documented shape
of the input: ascending row identifiers and per-row distinct node
IDs. -/
theorem orderRows_row_permutation (g : DAG) (workers : Nat) (result : Option RowMap)
    (hasc : List.Chain' (· < ·) g.rowIDs)
    (hnodup : ∀ r ∈ g.rowIDs, ((g.nodesInRow r).map GNode.ID).Nodup)
    (hrel : OrderRowsRel g workers result) (m : RowMap) (hm : result = some m) :
    ∀ r ∈ g.rowIDs, g.nodesInRow r ≠ [] →
      ∃ ord, m r = some ord ∧ ord.Perm ((g.nodesInRow r).map GNode.ID) := by
  simp only [OrderRowsRel] at hrel
  rcases hrel with ⟨hempty, hres⟩ | ⟨hne, hrest⟩
  · rw [hres] at hm
    exact Option.noConfusion hm
  · rcases hrest with ⟨h0, hres⟩ | ⟨hns, path, hbp, hres⟩
    · rw [hres] at hm
      have hm' : m = baryOrderRowsMap ⟨0⟩ g := (Option.some.inj hm).symm
      rw [hm']
      exact baryOrderRowsMap_rowPerm ⟨0⟩ g hne
    · rw [hres] at hm
      have hm' : m = toStringOrder (mkCtx g).rowNodes g.rowIDs path :=
        (Option.some.inj hm).symm
      rw [hm']
      intro r hr hner
      have hnd : g.rowIDs.Nodup := chain'_lt_nodup g.rowIDs hasc
      obtain ⟨i, hi, hgi⟩ := List.mem_iff_getElem.1 hr
      have hget : g.rowIDs.get ⟨i, hi⟩ = r := hgi
      have hcell : ∃ idx, path.getD i none = some idx ∧
          idx.Perm (List.range (g.nodesInRow r).length) := by
        cases hbp with
        | base =>
          refine ⟨toIndexRow (g.nodesInRow (g.rowIDs.get ⟨i, hi⟩))
            (((baryOrderRowsMap ⟨0⟩ g) (g.rowIDs.get ⟨i, hi⟩)).getD []), ?_, ?_⟩
          · exact toIndexPath_getD g g.rowIDs (baryOrderRowsMap ⟨0⟩ g) i hi
          · obtain ⟨ord, ho, hperm⟩ := baryOrderRowsMap_rowPerm ⟨0⟩ g hne r hr hner
            rw [hget, ho]
            exact toIndexRow_perm (g.nodesInRow r) (hnodup r hr) ord hperm
        | step hv hp hlt =>
          obtain ⟨hlen, hd1, hdle, habove, hbelow, hsc⟩ :=
            dfsReach_invariant (mkCtx g) workers hne hp
          rcases hbelow i (by exact hi) with ⟨ord, hcell, hperm⟩ | ⟨hnone, hemp⟩
          · refine ⟨ord, hcell, ?_⟩
            have hrow : (mkCtx g).rows.getD i 0 = r := by
              show g.rowIDs.getD i 0 = r
              rw [List.getD_eq_getElem g.rowIDs 0 hi]
              exact hgi
            rw [hrow] at hperm
            exact hperm
          · exfalso
            have hrow : (mkCtx g).rows.getD i 0 = r := by
              show g.rowIDs.getD i 0 = r
              rw [List.getD_eq_getElem g.rowIDs 0 hi]
              exact hgi
            rw [hrow] at hemp
            exact hner hemp
      obtain ⟨idx, hcell, hperm⟩ := hcell
      have hspec := toStringOrder_spec (mkCtx g).rowNodes g.rowIDs path hnd i hi
      rw [hget] at hspec
      rw [hspec, hcell]
      refine ⟨idx.map (fun j => (((mkCtx g).rowNodes r).getD j default).ID), rfl, ?_⟩
      exact stringify_perm (g.nodesInRow r) idx hperm

theorem orderRows_row_permutation_witness :
    ∃ ord, baryOrderRowsMap ⟨0⟩ gW 0 = some ord ∧
      ord.Perm ((gW.nodesInRow 0).map GNode.ID) :=
  orderRows_row_permutation gW 1 (some (baryOrderRowsMap ⟨0⟩ gW))
    (by simp [gW])
    (by
      intro r hr
      have hr0 : r = 0 := by simpa [gW] using hr
      rw [hr0]
      decide)
    (Or.inr ⟨by decide, Or.inl ⟨rfl, rfl⟩⟩)
    (baryOrderRowsMap ⟨0⟩ gW) rfl 0 (by decide) (by decide)

/-- C8.  Corrected: for an input with zero rows OrderRows returns Go nil
(not an empty non-nil mapping) — the spec's "empty mapping" half is
wrong; the non-nil half is right: a graph with at least one row never
yields nil. -/
theorem orderRows_nil_behaviour :
    (∀ result, OrderRowsRel gEmpty 1 result → result = none) ∧
    (∀ (g : DAG) (workers : Nat) (result : Option RowMap), g.rowIDs ≠ [] →
      OrderRowsRel g workers result → result ≠ none) := by
  constructor
  · intro result hrel
    simp only [OrderRowsRel] at hrel
    rcases hrel with ⟨_, hres⟩ | ⟨hne, _⟩
    · exact hres
    · exact absurd rfl hne
  · intro g workers result hne hrel
    simp only [OrderRowsRel] at hrel
    rcases hrel with ⟨hemp, _⟩ | ⟨_, hrest⟩
    · exact absurd hemp hne
    · rcases hrest with ⟨_, hres⟩ | ⟨_, _, _, hres⟩
      · rw [hres]
        exact Option.noConfusion
      · rw [hres]
        exact Option.noConfusion

/-- C8 counterexample.  On the graph with zero rows the only result the
code can return is Go nil, never an empty non-nil mapping. -/
theorem orderRows_zero_rows_nil :
    OrderRowsRel gEmpty 1 none ∧ ∀ m : RowMap, ¬ OrderRowsRel gEmpty 1 (some m) := by
  constructor
  · exact Or.inl ⟨rfl, rfl⟩
  · intro m h
    simp only [OrderRowsRel] at h
    rcases h with ⟨_, hres⟩ | ⟨hne, _⟩
    · exact Option.noConfusion hres
    · exact hne rfl

theorem orderRows_nil_behaviour_witness :
    ((none : Option RowMap) = none) ∧
      ((some (baryOrderRowsMap ⟨0⟩ gW) : Option RowMap) ≠ none) :=
  ⟨orderRows_nil_behaviour.1 none (Or.inl ⟨rfl, rfl⟩),
   orderRows_nil_behaviour.2 gW 1 (some (baryOrderRowsMap ⟨0⟩ gW)) (by simp [gW])
     (Or.inr ⟨by simp [gW], Or.inl ⟨rfl, rfl⟩⟩)⟩

/-- Any value the bestScore cell can hold is at most the initial
barycentric bound. -/
theorem bestVal_le (c : SCtx) (workers initScore : Nat) :
    ∀ {v}, BestVal c workers initScore v → v ≤ initScore := by
  intro v h
  induction h with
  | base => exact Nat.le_refl initScore
  | step hv hp hlt ih => omega

theorem fgEdges_getD (g : DAG) (rows : List Int) (j : Nat) (hj : j < rows.length - 1) :
    (fgEdges g rows).getD j [] =
      rowTable g (g.nodesInRow (rows.getD j 0)) (g.nodesInRow (rows.getD (j + 1) 0))
        (rows.getD (j + 1) 0) := by
  rw [fgEdges, List.getD_eq_getElem?_getD, List.getElem?_map,
    List.getElem?_eq_getElem (by simpa using hj)]
  simp

theorem scoreSum_eq_pairs (c : SCtx) (path : List (Option (List Nat))) (d : Nat)
    (hd : 1 ≤ d) :
    scoreSum c path d = ((List.range (d - 1)).map (fun j =>
      countCrossingsIdx (c.tables.getD j []) ((path.getD j none).getD [])
        ((path.getD (j + 1) none).getD []))).sum := by
  obtain ⟨e, rfl⟩ : ∃ e, d = e + 1 := ⟨d - 1, by omega⟩
  rw [scoreSum, List.range_succ_eq_map]
  simp only [List.map_cons, List.map_map, List.sum_cons, Nat.add_sub_cancel]
  simp only [if_true, Nat.zero_add]
  congr 1

/-- The whole-graph crossing count of any mapping equals the
accumulated pair score of its index translation. -/
theorem countCrossings_toIndexPath (g : DAG) (orders : RowMap)
    (hlen1 : 1 ≤ g.rowIDs.length) :
    CountCrossings g orders =
      scoreSum (mkCtx g) (toIndexPath g g.rowIDs orders) g.rowIDs.length := by
  rw [scoreSum_eq_pairs (mkCtx g) _ _ hlen1, CountCrossings]
  congr 1
  refine List.map_congr_left ?_
  intro j hj
  have hjlt : j < g.rowIDs.length - 1 := List.mem_range.1 hj
  have htbl : (mkCtx g).tables.getD j [] =
      rowTable g (g.nodesInRow (g.rowIDs.getD j 0)) (g.nodesInRow (g.rowIDs.getD (j + 1) 0))
        (g.rowIDs.getD (j + 1) 0) := fgEdges_getD g g.rowIDs j hjlt
  have hcellj := toIndexPath_getD g g.rowIDs orders j (by omega)
  have hcellj1 := toIndexPath_getD g g.rowIDs orders (j + 1) (by omega)
  have hgetj : g.rowIDs.get ⟨j, by omega⟩ = g.rowIDs.getD j 0 :=
    (List.getD_eq_getElem g.rowIDs 0 (by omega)).symm
  have hgetj1 : g.rowIDs.get ⟨j + 1, by omega⟩ = g.rowIDs.getD (j + 1) 0 :=
    (List.getD_eq_getElem g.rowIDs 0 (by omega)).symm
  rw [htbl, hcellj, hcellj1, hgetj, hgetj1]
  rfl

/-- With distinct row IDs and per-row distinct node IDs, the crossing
count of the materialized string mapping of a path whose cells are index
permutations (nil exactly on empty rows) equals the accumulated pair
score of the path. -/
theorem countCrossings_toStringOrder (g : DAG) (path : List (Option (List Nat)))
    (hnd : g.rowIDs.Nodup)
    (hnodup : ∀ r ∈ g.rowIDs, ((g.nodesInRow r).map GNode.ID).Nodup)
    (hlen1 : 1 ≤ g.rowIDs.length)
    (hcells : ∀ i, i < g.rowIDs.length →
      (∃ idx, path.getD i none = some idx ∧
        idx.Perm (List.range (g.nodesInRow (g.rowIDs.getD i 0)).length)) ∨
      (path.getD i none = none ∧ g.nodesInRow (g.rowIDs.getD i 0) = [])) :
    CountCrossings g (toStringOrder (mkCtx g).rowNodes g.rowIDs path) =
      scoreSum (mkCtx g) path g.rowIDs.length := by
  rw [scoreSum_eq_pairs (mkCtx g) _ _ hlen1, CountCrossings]
  congr 1
  refine List.map_congr_left ?_
  intro j hj
  have hjlt : j < g.rowIDs.length - 1 := List.mem_range.1 hj
  have htbl : (mkCtx g).tables.getD j [] =
      rowTable g (g.nodesInRow (g.rowIDs.getD j 0)) (g.nodesInRow (g.rowIDs.getD (j + 1) 0))
        (g.rowIDs.getD (j + 1) 0) := fgEdges_getD g g.rowIDs j hjlt
  have hrow : ∀ i, i < g.rowIDs.length →
      toIndexRow (g.nodesInRow (g.rowIDs.getD i 0))
        ((toStringOrder (mkCtx g).rowNodes g.rowIDs path (g.rowIDs.getD i 0)).getD []) =
      (path.getD i none).getD [] := by
    intro i hi
    have hget : g.rowIDs.getD i 0 = g.rowIDs.get ⟨i, hi⟩ :=
      List.getD_eq_getElem g.rowIDs 0 hi
    have hmem : g.rowIDs.get ⟨i, hi⟩ ∈ g.rowIDs := g.rowIDs.get_mem _ _
    have hspec := toStringOrder_spec (mkCtx g).rowNodes g.rowIDs path hnd i hi
    rcases hcells i hi with ⟨idx, hcell, hperm⟩ | ⟨hcell, hemp⟩
    · rw [hget] at hperm ⊢
      rw [hspec, hcell]
      simp only [Option.getD_some]
      exact toIndexRow_roundtrip (g.nodesInRow (g.rowIDs.get ⟨i, hi⟩))
        (hnodup _ hmem) idx hperm
    · rw [hget] at hemp ⊢
      rw [hspec, hcell]
      simp only [Option.getD_none]
      rw [hemp]
      rfl
  rw [htbl, hrow j (by omega), hrow (j + 1) (by omega)]

/-- C3.  Whatever result OptimalSearch.OrderRows returns (under any
schedule, worker count and timeout), its total crossing count never
exceeds that of the barycentric ordering of the same graph — given
ascending row identifiers and per-row distinct node IDs. -/
theorem orderRows_beats_barycentric (g : DAG) (workers : Nat) (result : Option RowMap)
    (hasc : List.Chain' (· < ·) g.rowIDs)
    (hnodup : ∀ r ∈ g.rowIDs, ((g.nodesInRow r).map GNode.ID).Nodup)
    (hrel : OrderRowsRel g workers result) (m : RowMap) (hm : result = some m) :
    CountCrossings g m ≤ CountCrossings g (baryOrderRowsMap ⟨0⟩ g) := by
  simp only [OrderRowsRel] at hrel
  rcases hrel with ⟨hempty, hres⟩ | ⟨hne, hrest⟩
  · rw [hres] at hm
    exact Option.noConfusion hm
  · have hlen1 : 1 ≤ g.rowIDs.length := by
      cases hrid : g.rowIDs with
      | nil => exact absurd hrid hne
      | cons a as => simp
    rcases hrest with ⟨h0, hres⟩ | ⟨hns, path, hbp, hres⟩
    · rw [hres] at hm
      have hm' : m = baryOrderRowsMap ⟨0⟩ g := (Option.some.inj hm).symm
      rw [hm']
    · rw [hres] at hm
      have hm' : m = toStringOrder (mkCtx g).rowNodes g.rowIDs path :=
        (Option.some.inj hm).symm
      rw [hm']
      have hnd : g.rowIDs.Nodup := chain'_lt_nodup g.rowIDs hasc
      cases hbp with
      | base =>
        have hcells : ∀ i, i < g.rowIDs.length →
            (∃ idx, (toIndexPath g g.rowIDs (baryOrderRowsMap ⟨0⟩ g)).getD i none =
                some idx ∧
              idx.Perm (List.range (g.nodesInRow (g.rowIDs.getD i 0)).length)) ∨
            ((toIndexPath g g.rowIDs (baryOrderRowsMap ⟨0⟩ g)).getD i none = none ∧
              g.nodesInRow (g.rowIDs.getD i 0) = []) := by
          intro i hi
          left
          have hget : g.rowIDs.getD i 0 = g.rowIDs.get ⟨i, hi⟩ :=
            List.getD_eq_getElem g.rowIDs 0 hi
          refine ⟨toIndexRow (g.nodesInRow (g.rowIDs.get ⟨i, hi⟩))
            (((baryOrderRowsMap ⟨0⟩ g) (g.rowIDs.get ⟨i, hi⟩)).getD []),
            toIndexPath_getD g g.rowIDs (baryOrderRowsMap ⟨0⟩ g) i hi, ?_⟩
          rw [hget]
          by_cases hemp : g.nodesInRow (g.rowIDs.get ⟨i, hi⟩) = []
          · rw [hemp]
            exact List.Perm.refl _
          · obtain ⟨ord, ho, hperm⟩ := baryOrderRowsMap_rowPerm ⟨0⟩ g hne
              (g.rowIDs.get ⟨i, hi⟩) (g.rowIDs.get_mem _ _) hemp
            rw [ho]
            exact toIndexRow_perm _ (hnodup _ (g.rowIDs.get_mem _ _)) ord hperm
        have h1 := countCrossings_toStringOrder g
          (toIndexPath g g.rowIDs (baryOrderRowsMap ⟨0⟩ g)) hnd hnodup hlen1 hcells
        have h2 := countCrossings_toIndexPath g (baryOrderRowsMap ⟨0⟩ g) hlen1
        rw [h1, ← h2]
      | @step v s path₂ hv hp hlt =>
        obtain ⟨hlen, hd1, hdle, habove, hbelow, hsc⟩ :=
          dfsReach_invariant (mkCtx g) workers hne hp
        have hcells : ∀ i, i < g.rowIDs.length →
            (∃ idx, path.getD i none = some idx ∧
              idx.Perm (List.range (g.nodesInRow (g.rowIDs.getD i 0)).length)) ∨
            (path.getD i none = none ∧ g.nodesInRow (g.rowIDs.getD i 0) = []) := by
          intro i hi
          exact hbelow i hi
        have h1 := countCrossings_toStringOrder g path hnd hnodup hlen1 hcells
        have h2 := bestVal_le (mkCtx g) workers _ hv
        have hsc2 : s = scoreSum (mkCtx g) path g.rowIDs.length := hsc
        rw [h1]
        omega

theorem orderRows_beats_barycentric_witness :
    CountCrossings gW (baryOrderRowsMap ⟨0⟩ gW) ≤
      CountCrossings gW (baryOrderRowsMap ⟨0⟩ gW) :=
  orderRows_beats_barycentric gW 1 (some (baryOrderRowsMap ⟨0⟩ gW))
    (by simp [gW])
    (by
      intro r hr
      have hr0 : r = 0 := by simpa [gW] using hr
      rw [hr0]
      decide)
    (Or.inr ⟨by simp [gW], Or.inl ⟨rfl, rfl⟩⟩)
    (baryOrderRowsMap ⟨0⟩ gW) rfl

end RowOrdering

end StackTower
